import Mathlib

/-!
Shallow embedding of the scope-aware identifier obfuscator
(calmjs/parse/obfuscator.py): the name generator, the scope tree
bookkeeping, and the event-driven orchestrator, together with theorems
about the claims of the specification.

Modelling conventions:
* Python dicts are insertion-ordered association lists with unique keys;
  `dget`/`dset` mirror `d.get(k)` / `d[k] = v`.
* Python sets are lists used only through membership.
* Fallible operations return `Except String _`; the error strings follow
  the exceptions the Python code raises.
* The traversal stack is a list of frames whose head is the Python
  `stack[-1]` (top).  A child scope is attached to its parent frame when
  it is popped; since traversal is LIFO this yields the same
  `children` lists (in `nest` order) as the Python code, and the open
  spine of the stack is reattached by `reconstructRoot` for `finalize`.
-/

/-- Python dict lookup `d.get(k)` on an association list. -/
def dget {α β : Type} [DecidableEq α] : List (α × β) → α → Option β
  | [], _ => none
  | (k', v) :: t, k => if k' = k then some v else dget t k

/-- Python dict update `d[k] = v`: overwrite in place, else append. -/
def dset {α β : Type} [DecidableEq α] : List (α × β) → α → β → List (α × β)
  | [], k, v => [(k, v)]
  | (k', v') :: t, k, v => if k' = k then (k', v) :: t else (k', v') :: dset t k v

/-- Python `d.get(k, dflt)`. -/
def dgetD {α β : Type} [DecidableEq α] (l : List (α × β)) (k : α) (dflt : β) : β :=
  (dget l k).getD dflt

/-- The association list has pairwise distinct keys (true of every
Python dict, maintained by `dset`). -/
def keysNodup {α β : Type} (l : List (α × β)) : Prop :=
  (l.map Prod.fst).Nodup

instance {α β : Type} [DecidableEq α] (l : List (α × β)) : Decidable (keysNodup l) := by
  unfold keysNodup; infer_instance

/-! ## NameGenerator

`NameGenerator.__iter__` is `for n in count(1): for chars in
product(self.charset, repeat=n): ... if symbol in self.skip: continue;
yield symbol`.  `wordsL charset n` is `product(charset, repeat=n)` in
its enumeration order (first coordinate varies slowest); `nthName` is
the `i`-th symbol the generator yields, computed by the same scan the
generator performs, with a fuel bound on the word length that is proved
sufficient (`nthName_isSome`). -/

/-- `ID_CHARS` of the source, as a list of characters. -/
def ID_CHARS : List Char :=
  "abcdefghijklmnopqrstuvwxyzABCDEFGHIJKLMNOPQRSTUVWXYZ_".toList

/-- Prepend each character of `cs` to every word of `ws`, in order:
the inner two loops of `itertools.product`. -/
def prependAll (cs : List Char) (ws : List (List Char)) : List (List Char) :=
  match cs with
  | [] => []
  | c :: t => ws.map (fun w => c :: w) ++ prependAll t ws

/-- All `charset`-words of length `n`, in `itertools.product` order. -/
def wordsL (charset : List Char) : Nat → List (List Char)
  | 0 => [[]]
  | n + 1 => prependAll charset (wordsL charset n)

/-- The words of length `n` rendered as strings (`''.join(chars)`). -/
def wordsS (charset : List Char) (n : Nat) : List String :=
  (wordsL charset n).map (fun w => String.mk w)

/-- Scan a block of candidate words for the `i`-th one not in `skip`;
`inl i'` reports the residual index when the block is exhausted. -/
def scanSkip (skip : List String) : List String → Nat → Sum Nat String
  | [], i => .inl i
  | w :: ws, i =>
    if w ∈ skip then scanSkip skip ws i
    else
      match i with
      | 0 => .inr w
      | i + 1 => scanSkip skip ws i

/-- Walk blocks of increasing word length, starting at length `n`,
looking for the `i`-th name not in `skip`; `fuel` bounds how many
lengths are visited. -/
def nthNameFrom (charset : List Char) (skip : List String) : Nat → Nat → Nat → Option String
  | 0, _, _ => none
  | fuel + 1, n, i =>
    match scanSkip skip (wordsS charset n) i with
    | .inr w => some w
    | .inl i' => nthNameFrom charset skip fuel (n + 1) i'

/-- The `i`-th name the generator yields (0-based).  The fuel
`i + skip.length + 1` lengths always suffices for a nonempty charset
(`nthName_isSome`). -/
def nthName (charset : List Char) (skip : List String) (i : Nat) : Option String :=
  nthNameFrom charset skip (i + skip.length + 1) 1 i

/-- The first `fuel` length-blocks of the generated sequence starting
at length `n`, with skipped names removed: the reference enumeration
the generator walks. -/
def genSeg (charset : List Char) (skip : List String) : Nat → Nat → List String
  | _, 0 => []
  | n, fuel + 1 =>
    (wordsS charset n).filter (fun w => decide (w ∉ skip)) ++ genSeg charset skip (n + 1) fuel

/-- Strict order on characters by their position in the alphabet. -/
def posLt (charset : List Char) (a b : Char) : Prop :=
  charset.indexOf a < charset.indexOf b

/-! ## Scope

One `Scope` value is the mutable bookkeeping of one Python `Scope`
object; the tree structure (`children`, `parent`) lives in `STree`
below, and operations that the Python code performs through the
`parent` pointer receive the ancestor context explicitly. -/

/-- The per-scope bookkeeping of the Python `Scope` class.  `sid` is the
object's identity (scopes are heap objects in Python), `node` the AST
node bound to it (`None` for the root). -/
structure Scope where
  sid : Nat
  node : Option Nat
  referenced_symbols : List (String × Nat)
  local_declared_symbols : List String
  remapped_symbols : List (String × String)
  closed : Bool
deriving Repr, DecidableEq

/-- `Scope.declare`: add to `local_declared_symbols` and seed the
reference entry (`self.referenced_symbols[symbol] =
self.referenced_symbols.get(symbol, 0)`). -/
def Scope.declare (d : Scope) (symbol : String) : Scope :=
  { d with
    local_declared_symbols :=
      if symbol ∈ d.local_declared_symbols then d.local_declared_symbols
      else d.local_declared_symbols ++ [symbol],
    referenced_symbols :=
      dset d.referenced_symbols symbol (dgetD d.referenced_symbols symbol 0) }

/-- `Scope.reference`: increment the reference counter, creating it at 1. -/
def Scope.reference (d : Scope) (symbol : String) : Scope :=
  { d with
    referenced_symbols :=
      dset d.referenced_symbols symbol (dgetD d.referenced_symbols symbol 0 + 1) }

/-- `Scope.leaked_referenced_symbols`: referenced entries whose key is
not locally declared. -/
def Scope.leaked (d : Scope) : List (String × Nat) :=
  d.referenced_symbols.filter (fun kv => decide (kv.1 ∉ d.local_declared_symbols))

/-- Merge one child's leaked symbols into the parent's
`referenced_symbols` (the inner loop of `Scope.close`). -/
def mergeChild (rs : List (String × Nat)) (leaks : List (String × Nat)) : List (String × Nat) :=
  leaks.foldl (fun rs kv => dset rs kv.1 (dgetD rs kv.1 0 + kv.2)) rs

/-- `Scope.close`: raise if already closed, else claim every child's
leaked reference counts and mark closed.  `childData` is the
bookkeeping of `self.children`, in order. -/
def Scope.close (d : Scope) (childData : List Scope) : Except String Scope :=
  if d.closed then .error "scope is already marked as closed"
  else .ok { d with
    referenced_symbols :=
      childData.foldl (fun rs cd => mergeChild rs cd.leaked) d.referenced_symbols,
    closed := true }

/-- `Scope.global_symbols`: referenced names declared neither locally
nor in any ancestor (`ancestorsDeclared` is the union of the ancestors'
`local_declared_symbols`). -/
def globalSymbolsOf (d : Scope) (ancestorsDeclared : List String) : List String :=
  (d.referenced_symbols.map Prod.fst).filter
    (fun s => decide (s ∉ d.local_declared_symbols ∧ s ∉ ancestorsDeclared))

/-- The scope tree: one Python `Scope` object plus its `children`. -/
inductive STree where
  | node (d : Scope) (children : List STree)

/-- The bookkeeping record at the root of a subtree. -/
def STree.dOf : STree → Scope
  | .node d _ => d

mutual

/-- `global_symbols ∪ global_symbols_in_children` of a subtree whose
ancestors declare `ancDecl`. -/
def globalsInSubtree (ancDecl : List String) : STree → List String
  | .node d cs =>
    globalSymbolsOf d ancDecl ++ globalsInForest (ancDecl ++ d.local_declared_symbols) cs

/-- `Scope.global_symbols_in_children` over a `children` list whose
members' ancestors declare `ancDecl`. -/
def globalsInForest (ancDecl : List String) : List STree → List String
  | [] => []
  | t :: ts => globalsInSubtree ancDecl t ++ globalsInForest ancDecl ts

end

/-- `reversed(sorted(items, key=itemgetter(1)))`: Python `sorted` is a
stable ascending sort, as is `List.insertionSort`. -/
def sortedRefs (refs : List (String × Nat)) : List (String × Nat) :=
  (refs.insertionSort (fun a b => a.2 ≤ b.2)).reverse

/-- The remap loop of `build_remap_symbols`: walk the sorted reference
entries, draw the next generated name for each locally declared symbol
(`continue` otherwise), `idx` being how many names were already drawn
from this scope's generator. -/
def drawNames (charset : List Char) (skipAll : List String) (decl : List String) :
    List (String × Nat) → Nat → List (String × String)
  | [], _ => []
  | (s, _) :: t, idx =>
    if s ∈ decl then
      (s, (nthName charset skipAll idx).getD "") :: drawNames charset skipAll decl t (idx + 1)
    else drawNames charset skipAll decl t idx

/-- The `children_only=False` body of `build_remap_symbols`: derive a
generator whose skip set is `localSkip` unioned with the root
generator's own skip (`NameGenerator.__call__`), then fill
`remapped_symbols`. -/
def buildRemapSelf (charset : List Char) (rootSkip : List String) (d : Scope)
    (localSkip : List String) : Scope :=
  { d with
    remapped_symbols :=
      (drawNames charset (localSkip ++ rootSkip) d.local_declared_symbols
          (sortedRefs d.referenced_symbols) 0).foldl
        (fun m kv => dset m kv.1 kv.2) d.remapped_symbols }

mutual

/-- `Scope.build_remap_symbols`.  `ancDecl` is the union of the
ancestors' declared symbols, `parentRemapped` the parent's (complete)
`remapped_symbols`; the skip set is `global_symbols_in_children`, the
visible parent remap values, and `global_symbols`, exactly as in the
source. -/
def buildRemapTree (charset : List Char) (rootSkip : List String) (ancDecl : List String)
    (parentRemapped : List (String × String)) (childrenOnly : Bool) : STree → STree
  | .node d cs =>
    let d' :=
      if childrenOnly then d
      else
        buildRemapSelf charset rootSkip d
          (globalsInForest (ancDecl ++ d.local_declared_symbols) cs
            ++ ((parentRemapped.filter (fun kv =>
                  decide ((dget d.referenced_symbols kv.1).isSome
                    ∧ kv.1 ∉ d.local_declared_symbols))).map Prod.snd)
            ++ globalSymbolsOf d ancDecl)
    .node d' (buildRemapForest charset rootSkip (ancDecl ++ d'.local_declared_symbols)
      d'.remapped_symbols cs)

/-- Recurse into the children, always with `children_only=False`. -/
def buildRemapForest (charset : List Char) (rootSkip : List String) (ancDecl : List String)
    (parentRemapped : List (String × String)) : List STree → List STree
  | [] => []
  | t :: ts =>
    buildRemapTree charset rootSkip ancDecl parentRemapped false t
      :: buildRemapForest charset rootSkip ancDecl parentRemapped ts

end

mutual

/-- Locate the scope with identity `sid`, returning the bookkeeping
records along the path from the root to it (the parent chain). -/
def findPath (sid : Nat) : STree → Option (List Scope)
  | .node d cs =>
    if d.sid = sid then some [d] else (findPathForest sid cs).map (fun p => d :: p)

/-- First child subtree containing `sid`. -/
def findPathForest (sid : Nat) : List STree → Option (List Scope)
  | [] => none
  | t :: ts =>
    match findPath sid t with
    | some p => some p
    | none => findPathForest sid ts

end

mutual

/-- All scope records of a subtree. -/
def sdsOfTree : STree → List Scope
  | .node d cs => d :: sdsOfForest cs

/-- All scope records of a forest. -/
def sdsOfForest : List STree → List Scope
  | [] => []
  | t :: ts => sdsOfTree t ++ sdsOfForest ts

end

/-- `Scope.resolve`, deepest scope first (the reversed root path):
take the first `remapped_symbols` hit walking up the parents, and
return it unless it is falsy (`return result or symbol`). -/
def resolveUp (symbol : String) : List Scope → String
  | [] => symbol
  | d :: rest =>
    match dget d.remapped_symbols symbol with
    | some v => if v = "" then symbol else v
    | none => resolveUp symbol rest

/-- Resolve `symbol` from the scope with identity `sid` inside tree `t`. -/
def resolveScope (t : STree) (sid : Nat) (symbol : String) : String :=
  match findPath sid t with
  | none => symbol
  | some p => resolveUp symbol p.reverse

/-! ## Obfuscator -/

/-- One open scope on the traversal stack: its bookkeeping and the
subtrees of its already-popped children, in `nest` order. -/
structure Frame where
  d : Scope
  children : List STree

/-- The `Obfuscator` state.  `finished` holds the root's subtree if a
stray `pop_scope` closed and removed the root itself (the Python object
remains reachable as `self.global_scope`). -/
structure Obfuscator where
  stack : List Frame
  finished : Option STree
  identifiers : List (Nat × Nat)
  scopes : List (Nat × Nat)
  nextSid : Nat
  obfuscate_globals : Bool
  reserved_keywords : List String

/-- The root scope created in `Obfuscator.__init__` (bound to no node). -/
def rootScope : Scope :=
  { sid := 0, node := none, referenced_symbols := [], local_declared_symbols := [],
    remapped_symbols := [], closed := false }

/-- `Obfuscator.__init__`: the global scope is pre-pushed. -/
def Obfuscator.init (og : Bool) (rk : List String) : Obfuscator :=
  { stack := [⟨rootScope, []⟩], finished := none, identifiers := [], scopes := [],
    nextSid := 1, obfuscate_globals := og, reserved_keywords := rk }

/-- `Obfuscator.push_scope`: nest a fresh scope under the current top
and push it (`IndexError` on an empty stack, from `current_scope`). -/
def pushScope (o : Obfuscator) (node : Nat) : Except String Obfuscator :=
  match o.stack with
  | [] => .error "list index out of range"
  | f :: rest =>
    let sd : Scope :=
      { sid := o.nextSid, node := some node, referenced_symbols := [],
        local_declared_symbols := [], remapped_symbols := [], closed := false }
    .ok { o with stack := ⟨sd, []⟩ :: f :: rest,
                 scopes := dset o.scopes node o.nextSid,
                 nextSid := o.nextSid + 1 }

/-- `Obfuscator.pop_scope`: pop the top of the stack and close it; the
`node` argument is never consulted.  Popping the last frame removes the
root scope itself (`IndexError` only when the stack is already empty). -/
def popScope (o : Obfuscator) (node : Nat) : Except String Obfuscator :=
  match o.stack with
  | [] => .error "pop from empty list"
  | f :: rest =>
    match f.d.close (f.children.map STree.dOf) with
    | .error e => .error e
    | .ok d' =>
      let t : STree := .node d' f.children
      match rest with
      | [] => .ok { o with stack := [], finished := some t }
      | g :: gs => .ok { o with stack := { g with children := g.children ++ [t] } :: gs }

/-- `Obfuscator.declare`: declare the node's value in the current scope
(no `identifiers` entry is recorded). -/
def declareEv (o : Obfuscator) (value : String) : Except String Obfuscator :=
  match o.stack with
  | [] => .error "list index out of range"
  | f :: rest => .ok { o with stack := { f with d := f.d.declare value } :: rest }

/-- `Obfuscator.reference`: map the identifier node to the current
scope and count the reference. -/
def referenceEv (o : Obfuscator) (occ : Nat) (value : String) : Except String Obfuscator :=
  match o.stack with
  | [] => .error "list index out of range"
  | f :: rest =>
    .ok { o with identifiers := dset o.identifiers occ f.d.sid,
                 stack := { f with d := f.d.reference value } :: rest }

/-- Reattach the open frames of the stack (head = top) under their
parents, yielding the root's current subtree: each open frame's open
child, if any, is the frame above it, nested after its completed
children. -/
def reconstructRoot (stack : List Frame) : Option STree :=
  stack.foldl (fun acc f => some (.node f.d (f.children ++ acc.toList))) none

/-- `Obfuscator.finalize`: close the global scope, then build the remap
tables with `NameGenerator(skip=self.reserved_keywords)` and
`children_only = not obfuscate_globals`.  Returns the finalized scope
tree (in Python the scopes are mutated in place). -/
def finalizeObf (o : Obfuscator) : Except String STree :=
  match o.finished with
  | some _ => .error "scope is already marked as closed"
  | none =>
    match reconstructRoot o.stack with
    | none => .error "no root scope"
    | some (.node d cs) =>
      match d.close (cs.map STree.dOf) with
      | .error e => .error e
      | .ok d' =>
        .ok (buildRemapTree ID_CHARS o.reserved_keywords [] [] (!o.obfuscate_globals)
          (.node d' cs))

/-- `Obfuscator.resolve`: occurrences absent from `identifiers` keep
their original text; otherwise resolve through the owning scope's
parent chain inside the finalized tree `t`. -/
def obfResolve (t : STree) (ids : List (Nat × Nat)) (occ : Nat) (value : String) : String :=
  match dget ids occ with
  | none => value
  | some sid => resolveScope t sid value

/-- One collection-phase traversal event (the four callbacks). -/
inductive Event where
  | push (node : Nat)
  | pop (node : Nat)
  | decl (occ : Nat) (value : String)
  | ref (occ : Nat) (value : String)

/-- Dispatch one event to the obfuscator. -/
def stepEv (o : Obfuscator) : Event → Except String Obfuscator
  | .push n => pushScope o n
  | .pop n => popScope o n
  | .decl _ v => declareEv o v
  | .ref occ v => referenceEv o occ v

/-- Feed the events to the obfuscator in order, stopping at the first
surfaced exception. -/
def runEventsFrom (o : Obfuscator) : List Event → Except String Obfuscator
  | [] => .ok o
  | e :: t =>
    match stepEv o e with
    | .error msg => .error msg
    | .ok o2 => runEventsFrom o2 t

/-- Run a whole collection phase from a fresh `Obfuscator`. -/
def runEvents (og : Bool) (rk : List String) (evs : List Event) : Except String Obfuscator :=
  runEventsFrom (Obfuscator.init og rk) evs

instance : IsTotal (String × Nat) (fun a b => a.2 ≤ b.2) :=
  ⟨fun a b => Nat.le_total a.2 b.2⟩

instance : IsTrans (String × Nat) (fun a b => a.2 ≤ b.2) :=
  ⟨fun _ _ _ hab hbc => Nat.le_trans hab hbc⟩

/-- Every scope bookkeeping record reachable from the obfuscator state
still has an empty remap table (true throughout the collection phase:
only `finalize` fills remap tables). -/
def obfRemapEmpty (o : Obfuscator) : Prop :=
  (∀ f ∈ o.stack, f.d.remapped_symbols = []
      ∧ ∀ sd ∈ sdsOfForest f.children, sd.remapped_symbols = [])
    ∧ ∀ t, o.finished = some t → ∀ sd ∈ sdsOfTree t, sd.remapped_symbols = []

/-- Unwrap an `Except`, with a default for the error case (used only to
name the result of concrete runs that are proved to succeed). -/
def getOk {ε α : Type} (dflt : α) : Except ε α → α
  | .ok a => a
  | .error _ => dflt

/-- Is this event a `reference` of the occurrence `occ`? -/
def isRefOf (occ : Nat) : Event → Bool
  | .ref o _ => o = occ
  | _ => false

/-- Events of the program `function A() { var x; function B() { function
C() { x; var y; y; } } }`: scope A declares `x`, scope C references `x`
and declares and references `y`. -/
def c1evs : List Event :=
  [.push 1, .decl 100 "x", .push 2, .push 3, .ref 101 "x", .decl 102 "y", .ref 103 "y",
   .pop 3, .pop 2, .pop 1]

/-- Intermediate collection state of the `c1evs` run. -/
def c1s1 : Obfuscator :=
  { stack := (⟨{ sid := 1, node := some 1, referenced_symbols := [], local_declared_symbols := [], remapped_symbols := [], closed := false }, []⟩ :: (⟨{ sid := 0, node := none, referenced_symbols := [], local_declared_symbols := [], remapped_symbols := [], closed := false }, []⟩ :: [])), finished := none, identifiers := [], scopes := [(1, 1)], nextSid := 2, obfuscate_globals := false, reserved_keywords := [] }

/-- Intermediate collection state of the `c1evs` run. -/
def c1s2 : Obfuscator :=
  { stack := (⟨{ sid := 1, node := some 1, referenced_symbols := [("x", 0)], local_declared_symbols := ["x"], remapped_symbols := [], closed := false }, []⟩ :: (⟨{ sid := 0, node := none, referenced_symbols := [], local_declared_symbols := [], remapped_symbols := [], closed := false }, []⟩ :: [])), finished := none, identifiers := [], scopes := [(1, 1)], nextSid := 2, obfuscate_globals := false, reserved_keywords := [] }

/-- Intermediate collection state of the `c1evs` run. -/
def c1s3 : Obfuscator :=
  { stack := (⟨{ sid := 2, node := some 2, referenced_symbols := [], local_declared_symbols := [], remapped_symbols := [], closed := false }, []⟩ :: (⟨{ sid := 1, node := some 1, referenced_symbols := [("x", 0)], local_declared_symbols := ["x"], remapped_symbols := [], closed := false }, []⟩ :: (⟨{ sid := 0, node := none, referenced_symbols := [], local_declared_symbols := [], remapped_symbols := [], closed := false }, []⟩ :: []))), finished := none, identifiers := [], scopes := [(1, 1), (2, 2)], nextSid := 3, obfuscate_globals := false, reserved_keywords := [] }

/-- Intermediate collection state of the `c1evs` run. -/
def c1s4 : Obfuscator :=
  { stack := (⟨{ sid := 3, node := some 3, referenced_symbols := [], local_declared_symbols := [], remapped_symbols := [], closed := false }, []⟩ :: (⟨{ sid := 2, node := some 2, referenced_symbols := [], local_declared_symbols := [], remapped_symbols := [], closed := false }, []⟩ :: (⟨{ sid := 1, node := some 1, referenced_symbols := [("x", 0)], local_declared_symbols := ["x"], remapped_symbols := [], closed := false }, []⟩ :: (⟨{ sid := 0, node := none, referenced_symbols := [], local_declared_symbols := [], remapped_symbols := [], closed := false }, []⟩ :: [])))), finished := none, identifiers := [], scopes := [(1, 1), (2, 2), (3, 3)], nextSid := 4, obfuscate_globals := false, reserved_keywords := [] }

/-- Intermediate collection state of the `c1evs` run. -/
def c1s5 : Obfuscator :=
  { stack := (⟨{ sid := 3, node := some 3, referenced_symbols := [("x", 1)], local_declared_symbols := [], remapped_symbols := [], closed := false }, []⟩ :: (⟨{ sid := 2, node := some 2, referenced_symbols := [], local_declared_symbols := [], remapped_symbols := [], closed := false }, []⟩ :: (⟨{ sid := 1, node := some 1, referenced_symbols := [("x", 0)], local_declared_symbols := ["x"], remapped_symbols := [], closed := false }, []⟩ :: (⟨{ sid := 0, node := none, referenced_symbols := [], local_declared_symbols := [], remapped_symbols := [], closed := false }, []⟩ :: [])))), finished := none, identifiers := [(101, 3)], scopes := [(1, 1), (2, 2), (3, 3)], nextSid := 4, obfuscate_globals := false, reserved_keywords := [] }

/-- Intermediate collection state of the `c1evs` run. -/
def c1s6 : Obfuscator :=
  { stack := (⟨{ sid := 3, node := some 3, referenced_symbols := [("x", 1), ("y", 0)], local_declared_symbols := ["y"], remapped_symbols := [], closed := false }, []⟩ :: (⟨{ sid := 2, node := some 2, referenced_symbols := [], local_declared_symbols := [], remapped_symbols := [], closed := false }, []⟩ :: (⟨{ sid := 1, node := some 1, referenced_symbols := [("x", 0)], local_declared_symbols := ["x"], remapped_symbols := [], closed := false }, []⟩ :: (⟨{ sid := 0, node := none, referenced_symbols := [], local_declared_symbols := [], remapped_symbols := [], closed := false }, []⟩ :: [])))), finished := none, identifiers := [(101, 3)], scopes := [(1, 1), (2, 2), (3, 3)], nextSid := 4, obfuscate_globals := false, reserved_keywords := [] }

/-- Intermediate collection state of the `c1evs` run. -/
def c1s7 : Obfuscator :=
  { stack := (⟨{ sid := 3, node := some 3, referenced_symbols := [("x", 1), ("y", 1)], local_declared_symbols := ["y"], remapped_symbols := [], closed := false }, []⟩ :: (⟨{ sid := 2, node := some 2, referenced_symbols := [], local_declared_symbols := [], remapped_symbols := [], closed := false }, []⟩ :: (⟨{ sid := 1, node := some 1, referenced_symbols := [("x", 0)], local_declared_symbols := ["x"], remapped_symbols := [], closed := false }, []⟩ :: (⟨{ sid := 0, node := none, referenced_symbols := [], local_declared_symbols := [], remapped_symbols := [], closed := false }, []⟩ :: [])))), finished := none, identifiers := [(101, 3), (103, 3)], scopes := [(1, 1), (2, 2), (3, 3)], nextSid := 4, obfuscate_globals := false, reserved_keywords := [] }

/-- Intermediate collection state of the `c1evs` run. -/
def c1s8 : Obfuscator :=
  { stack := (⟨{ sid := 2, node := some 2, referenced_symbols := [], local_declared_symbols := [], remapped_symbols := [], closed := false }, ((.node { sid := 3, node := some 3, referenced_symbols := [("x", 1), ("y", 1)], local_declared_symbols := ["y"], remapped_symbols := [], closed := true } []) :: [])⟩ :: (⟨{ sid := 1, node := some 1, referenced_symbols := [("x", 0)], local_declared_symbols := ["x"], remapped_symbols := [], closed := false }, []⟩ :: (⟨{ sid := 0, node := none, referenced_symbols := [], local_declared_symbols := [], remapped_symbols := [], closed := false }, []⟩ :: []))), finished := none, identifiers := [(101, 3), (103, 3)], scopes := [(1, 1), (2, 2), (3, 3)], nextSid := 4, obfuscate_globals := false, reserved_keywords := [] }

/-- Intermediate collection state of the `c1evs` run. -/
def c1s9 : Obfuscator :=
  { stack := (⟨{ sid := 1, node := some 1, referenced_symbols := [("x", 0)], local_declared_symbols := ["x"], remapped_symbols := [], closed := false }, ((.node { sid := 2, node := some 2, referenced_symbols := [("x", 1)], local_declared_symbols := [], remapped_symbols := [], closed := true } ((.node { sid := 3, node := some 3, referenced_symbols := [("x", 1), ("y", 1)], local_declared_symbols := ["y"], remapped_symbols := [], closed := true } []) :: [])) :: [])⟩ :: (⟨{ sid := 0, node := none, referenced_symbols := [], local_declared_symbols := [], remapped_symbols := [], closed := false }, []⟩ :: [])), finished := none, identifiers := [(101, 3), (103, 3)], scopes := [(1, 1), (2, 2), (3, 3)], nextSid := 4, obfuscate_globals := false, reserved_keywords := [] }

/-- Intermediate collection state of the `c1evs` run. -/
def c1s10 : Obfuscator :=
  { stack := (⟨{ sid := 0, node := none, referenced_symbols := [], local_declared_symbols := [], remapped_symbols := [], closed := false }, ((.node { sid := 1, node := some 1, referenced_symbols := [("x", 1)], local_declared_symbols := ["x"], remapped_symbols := [], closed := true } ((.node { sid := 2, node := some 2, referenced_symbols := [("x", 1)], local_declared_symbols := [], remapped_symbols := [], closed := true } ((.node { sid := 3, node := some 3, referenced_symbols := [("x", 1), ("y", 1)], local_declared_symbols := ["y"], remapped_symbols := [], closed := true } []) :: [])) :: [])) :: [])⟩ :: []), finished := none, identifiers := [(101, 3), (103, 3)], scopes := [(1, 1), (2, 2), (3, 3)], nextSid := 4, obfuscate_globals := false, reserved_keywords := [] }

/-- The finalized scope tree of the `c1evs` run, as a literal. -/
def c1treeLit : STree :=
  (.node { sid := 0, node := none, referenced_symbols := [], local_declared_symbols := [], remapped_symbols := [], closed := true } ((.node { sid := 1, node := some 1, referenced_symbols := [("x", 1)], local_declared_symbols := ["x"], remapped_symbols := [("x", "a")], closed := true } ((.node { sid := 2, node := some 2, referenced_symbols := [("x", 1)], local_declared_symbols := [], remapped_symbols := [], closed := true } ((.node { sid := 3, node := some 3, referenced_symbols := [("x", 1), ("y", 1)], local_declared_symbols := ["y"], remapped_symbols := [("y", "a")], closed := true } []) :: [])) :: [])) :: []))

/-- Events of the program `function f() { var x; } function g() { x; }`:
`x` is declared in scope 1 but free in scope 2 (and hence free at the
root). -/
def c4evs : List Event :=
  [.push 1, .decl 10 "x", .pop 1, .push 2, .ref 11 "x", .pop 2]

/-- Events with a declare-only occurrence (102) of a symbol that is also
referenced elsewhere (occurrence 103) and gets remapped. -/
def c9evs : List Event := [.push 1, .decl 102 "x", .ref 103 "x", .pop 1]

/-- The collected obfuscator state of `c9evs`. -/
def c9obf : Obfuscator := getOk (Obfuscator.init false []) (runEvents false [] c9evs)

/-- The finalized scope tree of `c9evs`. -/
def c9tree : STree := getOk (.node rootScope []) (finalizeObf c9obf)

/-- The collected obfuscator state of `c4evs`. -/
def c4obf : Obfuscator := getOk (Obfuscator.init false []) (runEvents false [] c4evs)

/-- The finalized scope tree of `c4evs`. -/
def c4tree : STree := getOk (.node rootScope []) (finalizeObf c4obf)

/-- A single reference to `window` at the root, with `window` configured
as a reserved keyword. -/
def c7evs : List Event := [.ref 1 "window"]

/-- The collected obfuscator state of `c7evs` (reserved: `window`). -/
def c7obf : Obfuscator := getOk (Obfuscator.init false ["window"]) (runEvents false ["window"] c7evs)

/-- The finalized scope tree of `c7evs`. -/
def c7tree : STree := getOk (.node rootScope []) (finalizeObf c7obf)

/-- The state after popping the root scope off a fresh obfuscator. -/
def c3popped : Obfuscator :=
  getOk (Obfuscator.init false []) (popScope (Obfuscator.init false []) 0)

/-- A closed scope with some bookkeeping, for exercising the
closed-state behaviour of `declare` and `reference`. -/
def c2closedScope : Scope :=
  { sid := 7, node := some 4, referenced_symbols := [("y", 2)],
    local_declared_symbols := ["y"], remapped_symbols := [], closed := true }

/-- A scope with two locally declared symbols of distinct reference
counts, for the frequency-priority witness. -/
def c6scope : Scope :=
  { sid := 5, node := some 3, referenced_symbols := [("p", 5), ("q", 1)],
    local_declared_symbols := ["p", "q"], remapped_symbols := [], closed := true }

/-- A parent scope for the leak-propagation witness. -/
def c5parent : Scope :=
  { sid := 1, node := some 1, referenced_symbols := [("a", 1)],
    local_declared_symbols := ["a"], remapped_symbols := [], closed := false }

/-- A closed child whose undeclared references leak to `c5parent`. -/
def c5child : Scope :=
  { sid := 2, node := some 2, referenced_symbols := [("k", 2), ("a", 3)],
    local_declared_symbols := [], remapped_symbols := [], closed := true }

/-! ## Dictionary lemmas -/

theorem dget_dset_self {α β : Type} [DecidableEq α] (l : List (α × β)) (k : α) (v : β) :
    dget (dset l k v) k = some v := by
  induction l with
  | nil => simp [dget, dset]
  | cons h t ih =>
    obtain ⟨k', v'⟩ := h
    by_cases hk : k' = k
    · subst hk; simp [dget, dset]
    · simp [dget, dset, hk, ih]

theorem dget_dset_ne {α β : Type} [DecidableEq α] (l : List (α × β)) (k k' : α) (v : β)
    (h : k ≠ k') : dget (dset l k v) k' = dget l k' := by
  induction l with
  | nil => simp [dget, dset, h]
  | cons hd t ih =>
    obtain ⟨k0, v0⟩ := hd
    by_cases hk : k0 = k
    · subst hk; simp [dget, dset, h]
    · simp only [dset, if_neg hk, dget, ih]
theorem dget_mem {α β : Type} [DecidableEq α] {l : List (α × β)} {k : α} {v : β}
    (h : dget l k = some v) : (k, v) ∈ l := by
  induction l with
  | nil => simp [dget] at h
  | cons hd t ih =>
    obtain ⟨k0, v0⟩ := hd
    by_cases hk : k0 = k
    · subst hk
      have h' : some v0 = some v := by simpa [dget] using h
      obtain rfl : v0 = v := Option.some.inj h'
      exact List.mem_cons_self _ _
    · simp only [dget, if_neg hk] at h
      exact List.mem_cons_of_mem _ (ih h)

theorem dget_not_mem_keys {α β : Type} [DecidableEq α] {l : List (α × β)} {k : α}
    (h : k ∉ l.map Prod.fst) : dget l k = none := by
  induction l with
  | nil => rfl
  | cons hd t ih =>
    obtain ⟨k0, v0⟩ := hd
    simp only [List.map_cons, List.mem_cons] at h
    push_neg at h
    have hk : k0 ≠ k := fun hh => h.1 hh.symm
    simp only [dget, if_neg hk, ih h.2]

theorem mem_dget_nodup {α β : Type} [DecidableEq α] {l : List (α × β)} {k : α} {v : β}
    (hn : keysNodup l) (h : (k, v) ∈ l) : dget l k = some v := by
  induction l with
  | nil => simp at h
  | cons hd t ih =>
    obtain ⟨k0, v0⟩ := hd
    unfold keysNodup at hn
    simp only [List.map_cons, List.nodup_cons] at hn
    rcases List.mem_cons.mp h with heq | hmem
    · cases heq; simp [dget]
    · have hk : k0 ≠ k := by
        rintro rfl
        exact hn.1 (List.mem_map.mpr ⟨(k0, v), hmem, rfl⟩)
      simp only [dget, if_neg hk]
      exact ih hn.2 hmem

/-! ## NameGenerator lemmas -/

theorem filterSkip_cons_mem {skip : List String} {x : String} (t : List String) (hx : x ∈ skip) :
    (x :: t).filter (fun w => decide (w ∉ skip)) = t.filter (fun w => decide (w ∉ skip)) := by
  simp [List.filter_cons, hx]

theorem filterSkip_cons_not_mem {skip : List String} {x : String} (t : List String)
    (hx : x ∉ skip) :
    (x :: t).filter (fun w => decide (w ∉ skip)) = x :: t.filter (fun w => decide (w ∉ skip)) := by
  simp [List.filter_cons, hx]

theorem scanSkip_of_getElem {skip l : List String} {i : Nat} {w : String}
    (h : (l.filter (fun w => decide (w ∉ skip)))[i]? = some w) :
    scanSkip skip l i = .inr w := by
  induction l generalizing i with
  | nil => simp at h
  | cons x t ih =>
    by_cases hx : x ∈ skip
    · rw [filterSkip_cons_mem t hx] at h
      simpa [scanSkip, hx] using ih h
    · rw [filterSkip_cons_not_mem t hx] at h
      cases i with
      | zero =>
        rw [List.getElem?_cons_zero] at h
        obtain rfl : x = w := Option.some.inj h
        simp [scanSkip, hx]
      | succ i =>
        rw [List.getElem?_cons_succ] at h
        simpa [scanSkip, hx] using ih h

theorem scanSkip_of_len {skip l : List String} {i : Nat}
    (h : (l.filter (fun w => decide (w ∉ skip))).length ≤ i) :
    scanSkip skip l i = .inl (i - (l.filter (fun w => decide (w ∉ skip))).length) := by
  induction l generalizing i with
  | nil => simp [scanSkip]
  | cons x t ih =>
    by_cases hx : x ∈ skip
    · rw [filterSkip_cons_mem t hx] at h ⊢
      simpa [scanSkip, hx] using ih h
    · rw [filterSkip_cons_not_mem t hx] at h ⊢
      cases i with
      | zero => simp at h
      | succ i =>
        have h' : (t.filter (fun w => decide (w ∉ skip))).length ≤ i := by
          simp only [List.length_cons] at h
          omega
        rw [show scanSkip skip (x :: t) (i + 1) = scanSkip skip t i from by simp [scanSkip, hx]]
        rw [ih h']
        congr 1
        simp only [List.length_cons]
        omega

theorem genSeg_succ (charset : List Char) (skip : List String) (n fuel : Nat) :
    genSeg charset skip n (fuel + 1) =
      (wordsS charset n).filter (fun w => decide (w ∉ skip)) ++ genSeg charset skip (n + 1) fuel :=
  rfl

theorem nthNameFrom_eq (charset : List Char) (skip : List String) :
    ∀ (fuel n i : Nat), nthNameFrom charset skip fuel n i = (genSeg charset skip n fuel)[i]? := by
  intro fuel
  induction fuel with
  | zero => intro n i; simp [nthNameFrom, genSeg]
  | succ fuel ih =>
    intro n i
    rw [genSeg_succ]
    by_cases hlt : i < ((wordsS charset n).filter (fun w => decide (w ∉ skip))).length
    · obtain ⟨w, hw⟩ : ∃ w, ((wordsS charset n).filter (fun w => decide (w ∉ skip)))[i]? = some w :=
        ⟨_, List.getElem?_eq_getElem hlt⟩
      rw [show nthNameFrom charset skip (fuel + 1) n i = some w from by
        simp [nthNameFrom, scanSkip_of_getElem hw]]
      rw [List.getElem?_append, if_pos hlt, hw]
    · push_neg at hlt
      rw [show nthNameFrom charset skip (fuel + 1) n i
          = nthNameFrom charset skip fuel (n + 1)
              (i - ((wordsS charset n).filter (fun w => decide (w ∉ skip))).length) from by
        simp [nthNameFrom, scanSkip_of_len hlt]]
      rw [ih, List.getElem?_append_right hlt]

theorem mem_genSeg_not_skip {charset : List Char} {skip : List String} {w : String} :
    ∀ {fuel n : Nat}, w ∈ genSeg charset skip n fuel → w ∉ skip := by
  intro fuel
  induction fuel with
  | zero => intro n h; simp [genSeg] at h
  | succ fuel ih =>
    intro n h
    rw [genSeg_succ] at h
    rcases List.mem_append.mp h with h1 | h2
    · have := (List.mem_filter.mp h1).2
      simpa using this
    · exact ih h2

theorem genSeg_split (charset : List Char) (skip : List String) :
    ∀ (f n g : Nat), genSeg charset skip n (f + g) =
      genSeg charset skip n f ++ genSeg charset skip (n + f) g := by
  intro f
  induction f with
  | zero => intro n g; simp [genSeg]
  | succ f ih =>
    intro n g
    have h1 : f + 1 + g = (f + g) + 1 := by omega
    have h2 : n + 1 + f = n + (f + 1) := by omega
    rw [h1]
    show (wordsS charset n).filter (fun w => decide (w ∉ skip)) ++ genSeg charset skip (n + 1) (f + g)
        = genSeg charset skip n (f + 1) ++ genSeg charset skip (n + (f + 1)) g
    rw [ih (n + 1) g, genSeg_succ charset skip n f, List.append_assoc, h2]

theorem mem_prependAll {cs : List Char} {ws : List (List Char)} {w : List Char} :
    w ∈ prependAll cs ws ↔ ∃ c, c ∈ cs ∧ ∃ v, v ∈ ws ∧ w = c :: v := by
  induction cs with
  | nil => simp [prependAll]
  | cons c t ih =>
    simp only [prependAll, List.mem_append, List.mem_map, ih, List.mem_cons]
    constructor
    · rintro (⟨v, hv, rfl⟩ | ⟨c', hc', v, hv, rfl⟩)
      · exact ⟨c, Or.inl rfl, v, hv, rfl⟩
      · exact ⟨c', Or.inr hc', v, hv, rfl⟩
    · rintro ⟨c', hc' | hc', v, hv, rfl⟩
      · exact Or.inl ⟨v, hv, by rw [hc']⟩
      · exact Or.inr ⟨c', hc', v, hv, rfl⟩

theorem len_of_mem_wordsL {charset : List Char} :
    ∀ {n : Nat} {w : List Char}, w ∈ wordsL charset n → w.length = n := by
  intro n
  induction n with
  | zero => intro w h; simp [wordsL] at h; simp [h]
  | succ n ih =>
    intro w h
    rw [wordsL] at h
    obtain ⟨c, _, v, hv, rfl⟩ := mem_prependAll.mp h
    simp [ih hv]

theorem wordsL_complete {charset : List Char} :
    ∀ {w : List Char}, (∀ c ∈ w, c ∈ charset) → w ∈ wordsL charset w.length := by
  intro w
  induction w with
  | nil => intro _; simp [wordsL]
  | cons c v ih =>
    intro h
    rw [List.length_cons, wordsL]
    exact mem_prependAll.mpr ⟨c, h c (List.mem_cons_self _ _), v,
      ih (fun x hx => h x (List.mem_cons_of_mem _ hx)), rfl⟩

theorem len_of_mem_wordsS {charset : List Char} {n : Nat} {w : String}
    (h : w ∈ wordsS charset n) : w.length = n := by
  obtain ⟨v, hv, rfl⟩ := List.mem_map.mp h
  simpa [String.length] using len_of_mem_wordsL hv

theorem mem_genSeg_of {charset : List Char} {skip : List String} {w : String} {m : Nat} :
    ∀ {fuel n0 : Nat}, n0 ≤ m → m < n0 + fuel → w ∈ wordsS charset m → w ∉ skip →
      w ∈ genSeg charset skip n0 fuel := by
  intro fuel
  induction fuel with
  | zero => intro n0 h1 h2 _ _; omega
  | succ fuel ih =>
    intro n0 h1 h2 hw hskip
    rw [genSeg_succ, List.mem_append]
    by_cases hm : m = n0
    · subst hm
      exact Or.inl (List.mem_filter.mpr ⟨hw, by simpa using hskip⟩)
    · exact Or.inr (ih (by omega) (by omega) hw hskip)

theorem genSeg_one_len_lb {charset : List Char} (skip : List String) (hcs : charset ≠ [])
    (L : Nat) : L - skip.length ≤ (genSeg charset skip 1 L).length := by
  obtain ⟨c, cs, rfl⟩ := List.exists_cons_of_ne_nil hcs
  -- the powers of the head character witness at least one candidate per length
  have powmem : ∀ k : Nat, String.mk (List.replicate (k + 1) c) ∈ wordsS (c :: cs) (k + 1) := by
    intro k
    apply List.mem_map_of_mem
    have := @wordsL_complete (c :: cs) (List.replicate (k + 1) c)
      (fun x hx => by rw [List.eq_of_mem_replicate hx]; exact List.mem_cons_self _ _)
    simpa [List.length_replicate] using this
  have powinj : Function.Injective (fun k : Nat => String.mk (List.replicate (k + 1) c)) := by
    intro a b hab
    have hd : List.replicate (a + 1) c = List.replicate (b + 1) c := congrArg String.data hab
    have := congrArg List.length hd
    simp only [List.length_replicate] at this
    omega
  set pows := (List.range L).map (fun k : Nat => String.mk (List.replicate (k + 1) c)) with hpows
  have hplen : pows.length = L := by simp [hpows]
  have hpnodup : pows.Nodup := (List.nodup_range L).map powinj
  set good := pows.filter (fun w => decide (w ∉ skip)) with hgood
  set bad := pows.filter (fun w => !(decide (w ∉ skip))) with hbad
  have hsplit : good.length + bad.length = L := by
    rw [← hplen, hgood, hbad]
    exact (List.length_eq_length_filter_add _).symm
  have hbadle : bad.length ≤ skip.length := by
    have hsub : bad ⊆ skip := by
      intro x hx
      have := (List.mem_filter.mp hx).2
      simpa using this
    exact ((hpnodup.filter _).subperm hsub).length_le
  have hgoodsub : good ⊆ genSeg (c :: cs) skip 1 L := by
    intro x hx
    obtain ⟨hxp, hxs⟩ := List.mem_filter.mp hx
    obtain ⟨k, hk, rfl⟩ := List.mem_map.mp hxp
    have hkL : k < L := List.mem_range.mp hk
    exact mem_genSeg_of (by omega) (by omega) (powmem k) (by simpa using hxs)
  have hgoodle : good.length ≤ (genSeg (c :: cs) skip 1 L).length :=
    ((hpnodup.filter _).subperm hgoodsub).length_le
  omega

theorem nthName_eq_genSeg (charset : List Char) (skip : List String) (i : Nat) :
    nthName charset skip i = (genSeg charset skip 1 (i + skip.length + 1))[i]? :=
  nthNameFrom_eq charset skip (i + skip.length + 1) 1 i

theorem nthName_isSome {charset : List Char} (hcs : charset ≠ []) (skip : List String) (i : Nat) :
    (nthName charset skip i).isSome = true := by
  rw [nthName_eq_genSeg]
  have hlb := genSeg_one_len_lb skip hcs (i + skip.length + 1)
  have hi : i < (genSeg charset skip 1 (i + skip.length + 1)).length := by omega
  rw [List.getElem?_eq_getElem hi]
  rfl

theorem nthName_not_mem_skip {charset : List Char} {skip : List String} {i : Nat} {w : String}
    (h : nthName charset skip i = some w) : w ∉ skip := by
  rw [nthName_eq_genSeg] at h
  exact mem_genSeg_not_skip (List.getElem?_mem h)

theorem genSeg_len_ge {charset : List Char} {skip : List String} {w : String} :
    ∀ {fuel n : Nat}, w ∈ genSeg charset skip n fuel → n ≤ w.length := by
  intro fuel
  induction fuel with
  | zero => intro n h; simp [genSeg] at h
  | succ fuel ih =>
    intro n h
    rw [genSeg_succ] at h
    rcases List.mem_append.mp h with h1 | h2
    · rw [len_of_mem_wordsS (List.mem_of_mem_filter h1)]
    · exact Nat.le_of_succ_le (ih h2)

theorem genSeg_pairwise_len (charset : List Char) (skip : List String) :
    ∀ (fuel n : Nat), (genSeg charset skip n fuel).Pairwise (fun a b => a.length ≤ b.length) := by
  intro fuel
  induction fuel with
  | zero => intro n; simp [genSeg]
  | succ fuel ih =>
    intro n
    rw [genSeg_succ, List.pairwise_append]
    refine ⟨?_, ih (n + 1), ?_⟩
    · apply List.pairwise_of_forall_mem_list
      intro a ha b hb
      rw [len_of_mem_wordsS (List.mem_of_mem_filter ha),
        len_of_mem_wordsS (List.mem_of_mem_filter hb)]
    · intro a ha b hb
      rw [len_of_mem_wordsS (List.mem_of_mem_filter ha)]
      exact Nat.le_of_succ_le (genSeg_len_ge hb)

theorem nthName_len_mono {charset : List Char} {skip : List String} {i j : Nat} {wi wj : String}
    (hcs : charset ≠ []) (hij : i ≤ j) (hi : nthName charset skip i = some wi)
    (hj : nthName charset skip j = some wj) : wi.length ≤ wj.length := by
  rcases Nat.eq_or_lt_of_le hij with rfl | hlt
  · rw [hi] at hj
    rw [Option.some.inj hj]
  · rw [nthName_eq_genSeg] at hi hj
    -- embed the shorter enumeration as an initial segment of the longer one
    have hsplit : genSeg charset skip 1 (j + skip.length + 1)
        = genSeg charset skip 1 (i + skip.length + 1)
          ++ genSeg charset skip (1 + (i + skip.length + 1)) (j - i) := by
      rw [← genSeg_split charset skip (i + skip.length + 1) 1 (j - i)]
      congr 1
      omega
    obtain ⟨hilen, higet⟩ := List.getElem?_eq_some.mp hi
    have hi' : (genSeg charset skip 1 (j + skip.length + 1))[i]? = some wi := by
      rw [hsplit, List.getElem?_append, if_pos hilen, List.getElem?_eq_getElem hilen, higet]
    obtain ⟨hjlen, hjget⟩ := List.getElem?_eq_some.mp hj
    obtain ⟨hilen', higet'⟩ := List.getElem?_eq_some.mp hi'
    have hp := genSeg_pairwise_len charset skip (j + skip.length + 1) 1
    rw [List.pairwise_iff_getElem] at hp
    have := hp i j hilen' hjlen hlt
    rwa [higet', hjget] at this

theorem posLt_pairwise {charset : List Char} (h : charset.Nodup) :
    charset.Pairwise (posLt charset) := by
  rw [List.pairwise_iff_getElem]
  intro i j hi hj hij
  unfold posLt
  rw [List.indexOf_getElem h i hi, List.indexOf_getElem h j hj]
  exact hij

theorem prependAll_pairwise_lex {charset : List Char} {ws : List (List Char)} :
    ∀ {cs : List Char}, cs.Pairwise (posLt charset) →
      ws.Pairwise (List.Lex (posLt charset)) →
      (prependAll cs ws).Pairwise (List.Lex (posLt charset)) := by
  intro cs
  induction cs with
  | nil => intro _ _; simp [prependAll]
  | cons c t ih =>
    intro hcs hws
    rw [prependAll, List.pairwise_append]
    rw [List.pairwise_cons] at hcs
    refine ⟨List.Pairwise.map _ (fun a b hab => List.Lex.cons hab) hws, ih hcs.2 hws, ?_⟩
    intro a ha b hb
    obtain ⟨va, _, rfl⟩ := List.mem_map.mp ha
    obtain ⟨c', hc', vb, _, rfl⟩ := mem_prependAll.mp hb
    exact List.Lex.rel (hcs.1 c' hc')

theorem wordsL_pairwise_lex {charset : List Char} (h : charset.Nodup) :
    ∀ (n : Nat), (wordsL charset n).Pairwise (List.Lex (posLt charset)) := by
  intro n
  induction n with
  | zero => simp [wordsL]
  | succ n ih =>
    rw [wordsL]
    exact prependAll_pairwise_lex (posLt_pairwise h) ih

/-! ## Scope-tree induction -/

theorem stree_ind_aux (P : STree → Prop) (Q : List STree → Prop)
    (hnode : ∀ d cs, Q cs → P (.node d cs)) (hnil : Q [])
    (hcons : ∀ t ts, P t → Q ts → Q (t :: ts)) :
    ∀ n : Nat, (∀ t : STree, sizeOf t ≤ n → P t) ∧ (∀ ts : List STree, sizeOf ts ≤ n → Q ts) := by
  intro n
  induction n with
  | zero =>
    constructor
    · intro t ht
      cases t with
      | node d cs => simp only [STree.node.sizeOf_spec] at ht; omega
    · intro ts hts
      cases ts with
      | nil => exact hnil
      | cons t ts' => simp only [List.cons.sizeOf_spec] at hts; omega
  | succ n ih =>
    constructor
    · intro t ht
      cases t with
      | node d cs =>
        apply hnode
        apply ih.2
        simp only [STree.node.sizeOf_spec] at ht
        omega
    · intro ts hts
      cases ts with
      | nil => exact hnil
      | cons t ts' =>
        simp only [List.cons.sizeOf_spec] at hts
        exact hcons t ts' (ih.1 t (by omega)) (ih.2 ts' (by omega))

theorem stree_mutual_ind (P : STree → Prop) (Q : List STree → Prop)
    (hnode : ∀ d cs, Q cs → P (.node d cs)) (hnil : Q [])
    (hcons : ∀ t ts, P t → Q ts → Q (t :: ts)) :
    (∀ t, P t) ∧ (∀ ts, Q ts) :=
  ⟨fun t => (stree_ind_aux P Q hnode hnil hcons (sizeOf t)).1 t le_rfl,
   fun ts => (stree_ind_aux P Q hnode hnil hcons (sizeOf ts)).2 ts le_rfl⟩

/-! ## Remap-construction lemmas -/

theorem drawNames_mem {charset : List Char} {skipAll decl : List String} {s v : String} :
    ∀ {l : List (String × Nat)} {idx : Nat}, (s, v) ∈ drawNames charset skipAll decl l idx →
      s ∈ decl ∧ ∃ k, idx ≤ k ∧ v = (nthName charset skipAll k).getD "" := by
  intro l
  induction l with
  | nil => intro idx h; simp [drawNames] at h
  | cons e t ih =>
    intro idx h
    obtain ⟨s0, c0⟩ := e
    by_cases hd : s0 ∈ decl
    · simp only [drawNames, if_pos hd, List.mem_cons] at h
      rcases h with heq | hmem
      · obtain ⟨rfl, rfl⟩ := Prod.mk.injEq .. ▸ heq
        exact ⟨hd, idx, le_rfl, rfl⟩
      · obtain ⟨h1, k, hk, hv⟩ := ih hmem
        exact ⟨h1, k, by omega, hv⟩
    · simp only [drawNames, if_neg hd] at h
      exact ih h

theorem dget_foldl_dset_eq_some {m0 : List (String × String)} {k v : String} :
    ∀ {l : List (String × String)},
      dget (l.foldl (fun m kv => dset m kv.1 kv.2) m0) k = some v →
      dget m0 k = some v ∨ (k, v) ∈ l := by
  intro l
  induction l generalizing m0 with
  | nil => intro h; exact Or.inl h
  | cons e t ih =>
    intro h
    obtain ⟨k1, v1⟩ := e
    rw [List.foldl_cons] at h
    rcases ih h with h1 | h2
    · by_cases hk : k1 = k
      · subst hk
        rw [dget_dset_self] at h1
        obtain rfl : v1 = v := Option.some.inj h1
        exact Or.inr (List.mem_cons_self _ _)
      · rw [dget_dset_ne _ _ _ _ hk] at h1
        exact Or.inl h1
    · exact Or.inr (List.mem_cons_of_mem _ h2)

theorem buildRemapSelf_decl (charset : List Char) (rootSkip : List String) (d : Scope)
    (localSkip : List String) :
    (buildRemapSelf charset rootSkip d localSkip).local_declared_symbols
        = d.local_declared_symbols
      ∧ (buildRemapSelf charset rootSkip d localSkip).referenced_symbols = d.referenced_symbols
      ∧ (buildRemapSelf charset rootSkip d localSkip).sid = d.sid := by
  simp [buildRemapSelf]

theorem buildRemapSelf_keys {charset : List Char} {rootSkip localSkip : List String} {d : Scope}
    {s v : String}
    (h : dget (buildRemapSelf charset rootSkip d localSkip).remapped_symbols s = some v) :
    dget d.remapped_symbols s = some v ∨ s ∈ d.local_declared_symbols := by
  unfold buildRemapSelf at h
  rcases dget_foldl_dset_eq_some h with h1 | h2
  · exact Or.inl h1
  · exact Or.inr (drawNames_mem h2).1

theorem buildRemapSelf_vals {charset : List Char} {rootSkip localSkip : List String} {d : Scope}
    {s v : String}
    (h : dget (buildRemapSelf charset rootSkip d localSkip).remapped_symbols s = some v) :
    dget d.remapped_symbols s = some v
      ∨ ∃ k, v = (nthName charset (localSkip ++ rootSkip) k).getD "" := by
  unfold buildRemapSelf at h
  rcases dget_foldl_dset_eq_some h with h1 | h2
  · exact Or.inl h1
  · obtain ⟨_, k, _, hv⟩ := drawNames_mem h2
    exact Or.inr ⟨k, hv⟩

theorem nthName_getD_not_mem {charset : List Char} (hcs : charset ≠ [])
    (skip : List String) (k : Nat) : (nthName charset skip k).getD "" ∉ skip := by
  have hs := nthName_isSome hcs skip k
  obtain ⟨w, hw⟩ := Option.isSome_iff_exists.mp hs
  rw [hw]
  exact nthName_not_mem_skip hw

theorem buildRemapTree_node (charset : List Char) (rk anc : List String)
    (prem : List (String × String)) (co : Bool) (d : Scope) (cs : List STree) :
    buildRemapTree charset rk anc prem co (.node d cs)
      = (let d' :=
          if co then d
          else
            buildRemapSelf charset rk d
              (globalsInForest (anc ++ d.local_declared_symbols) cs
                ++ ((prem.filter (fun kv =>
                      decide ((dget d.referenced_symbols kv.1).isSome
                        ∧ kv.1 ∉ d.local_declared_symbols))).map Prod.snd)
                ++ globalSymbolsOf d anc)
         .node d' (buildRemapForest charset rk (anc ++ d'.local_declared_symbols)
           d'.remapped_symbols cs)) := by
  rw [buildRemapTree]

theorem buildRemapForest_nil (charset : List Char) (rk anc : List String)
    (prem : List (String × String)) : buildRemapForest charset rk anc prem [] = [] := by
  rw [buildRemapForest]

theorem buildRemapForest_cons (charset : List Char) (rk anc : List String)
    (prem : List (String × String)) (t : STree) (ts : List STree) :
    buildRemapForest charset rk anc prem (t :: ts)
      = buildRemapTree charset rk anc prem false t
          :: buildRemapForest charset rk anc prem ts := by
  rw [buildRemapForest]

theorem sdsOfTree_node (d : Scope) (cs : List STree) :
    sdsOfTree (.node d cs) = d :: sdsOfForest cs := by
  rw [sdsOfTree]

theorem sdsOfForest_nil : sdsOfForest [] = [] := by rw [sdsOfForest]

theorem sdsOfForest_cons (t : STree) (ts : List STree) :
    sdsOfForest (t :: ts) = sdsOfTree t ++ sdsOfForest ts := by
  rw [sdsOfForest]

theorem buildRemap_keys_decl (charset : List Char) (rk : List String) :
    (∀ t : STree, ∀ anc prem co,
      (∀ sd ∈ sdsOfTree t, sd.remapped_symbols = []) →
      ∀ sd ∈ sdsOfTree (buildRemapTree charset rk anc prem co t),
        ∀ s, (dget sd.remapped_symbols s).isSome = true → s ∈ sd.local_declared_symbols)
    ∧ (∀ ts : List STree, ∀ anc prem,
      (∀ sd ∈ sdsOfForest ts, sd.remapped_symbols = []) →
      ∀ sd ∈ sdsOfForest (buildRemapForest charset rk anc prem ts),
        ∀ s, (dget sd.remapped_symbols s).isSome = true → s ∈ sd.local_declared_symbols) := by
  apply stree_mutual_ind
  · intro d cs ihQ anc prem co hpre sd hsd s hs
    rw [buildRemapTree_node] at hsd
    simp only [sdsOfTree_node, List.mem_cons] at hsd
    have hdrem : d.remapped_symbols = [] :=
      hpre d (by rw [sdsOfTree_node]; exact List.mem_cons_self _ _)
    have hcpre : ∀ sd ∈ sdsOfForest cs, sd.remapped_symbols = [] := by
      intro x hx
      exact hpre x (by rw [sdsOfTree_node]; exact List.mem_cons_of_mem _ hx)
    rcases hsd with rfl | hmem
    · by_cases hco : co
      · rw [if_pos hco] at hs ⊢
        rw [hdrem] at hs
        simp [dget] at hs
      · rw [if_neg hco] at hs ⊢
        obtain ⟨v, hv⟩ := Option.isSome_iff_exists.mp hs
        rcases buildRemapSelf_keys hv with h1 | h2
        · rw [hdrem] at h1; simp [dget] at h1
        · rw [(buildRemapSelf_decl charset rk d _).1]
          exact h2
    · exact ihQ _ _ hcpre sd hmem s hs
  · intro anc prem _ sd hsd
    rw [buildRemapForest_nil, sdsOfForest_nil] at hsd
    simp at hsd
  · intro t ts ihP ihQ anc prem hpre sd hsd s hs
    rw [buildRemapForest_cons, sdsOfForest_cons, List.mem_append] at hsd
    have hpret : ∀ x ∈ sdsOfTree t, x.remapped_symbols = [] := by
      intro x hx
      exact hpre x (by rw [sdsOfForest_cons]; exact List.mem_append_left _ hx)
    have hprets : ∀ x ∈ sdsOfForest ts, x.remapped_symbols = [] := by
      intro x hx
      exact hpre x (by rw [sdsOfForest_cons]; exact List.mem_append_right _ hx)
    rcases hsd with h1 | h2
    · exact ihP anc prem false hpret sd h1 s hs
    · exact ihQ anc prem hprets sd h2 s hs

theorem buildRemap_vals_not_reserved (charset : List Char) (hcs : charset ≠ [])
    (rk : List String) :
    (∀ t : STree, ∀ anc prem co,
      (∀ sd ∈ sdsOfTree t, sd.remapped_symbols = []) →
      ∀ sd ∈ sdsOfTree (buildRemapTree charset rk anc prem co t),
        ∀ s v, dget sd.remapped_symbols s = some v → v ∉ rk)
    ∧ (∀ ts : List STree, ∀ anc prem,
      (∀ sd ∈ sdsOfForest ts, sd.remapped_symbols = []) →
      ∀ sd ∈ sdsOfForest (buildRemapForest charset rk anc prem ts),
        ∀ s v, dget sd.remapped_symbols s = some v → v ∉ rk) := by
  apply stree_mutual_ind
  · intro d cs ihQ anc prem co hpre sd hsd s v hv
    rw [buildRemapTree_node] at hsd
    simp only [sdsOfTree_node, List.mem_cons] at hsd
    have hdrem : d.remapped_symbols = [] :=
      hpre d (by rw [sdsOfTree_node]; exact List.mem_cons_self _ _)
    have hcpre : ∀ x ∈ sdsOfForest cs, x.remapped_symbols = [] := by
      intro x hx
      exact hpre x (by rw [sdsOfTree_node]; exact List.mem_cons_of_mem _ hx)
    rcases hsd with rfl | hmem
    · by_cases hco : co
      · rw [if_pos hco] at hv
        rw [hdrem] at hv
        simp [dget] at hv
      · rw [if_neg hco] at hv
        rcases buildRemapSelf_vals hv with h1 | ⟨k, rfl⟩
        · rw [hdrem] at h1; simp [dget] at h1
        · intro hmem
          exact nthName_getD_not_mem hcs _ k (List.mem_append_right _ hmem)
    · exact ihQ _ _ hcpre sd hmem s v hv
  · intro anc prem _ sd hsd
    rw [buildRemapForest_nil, sdsOfForest_nil] at hsd
    simp at hsd
  · intro t ts ihP ihQ anc prem hpre sd hsd s v hv
    rw [buildRemapForest_cons, sdsOfForest_cons, List.mem_append] at hsd
    have hpret : ∀ x ∈ sdsOfTree t, x.remapped_symbols = [] := by
      intro x hx
      exact hpre x (by rw [sdsOfForest_cons]; exact List.mem_append_left _ hx)
    have hprets : ∀ x ∈ sdsOfForest ts, x.remapped_symbols = [] := by
      intro x hx
      exact hpre x (by rw [sdsOfForest_cons]; exact List.mem_append_right _ hx)
    rcases hsd with h1 | h2
    · exact ihP anc prem false hpret sd h1 s v hv
    · exact ihQ anc prem hprets sd h2 s v hv

theorem findPath_node (sid : Nat) (d : Scope) (cs : List STree) :
    findPath sid (.node d cs)
      = if d.sid = sid then some [d] else (findPathForest sid cs).map (fun p => d :: p) := by
  rw [findPath]

theorem findPathForest_nil (sid : Nat) : findPathForest sid [] = none := by
  rw [findPathForest]

theorem findPathForest_cons (sid : Nat) (t : STree) (ts : List STree) :
    findPathForest sid (t :: ts)
      = match findPath sid t with
        | some p => some p
        | none => findPathForest sid ts := by
  rw [findPathForest]

theorem findPath_subset_sds :
    (∀ t : STree, ∀ sid p, findPath sid t = some p → ∀ sd ∈ p, sd ∈ sdsOfTree t)
    ∧ (∀ ts : List STree, ∀ sid p, findPathForest sid ts = some p →
        ∀ sd ∈ p, sd ∈ sdsOfForest ts) := by
  apply stree_mutual_ind
  · intro d cs ihQ sid p hp sd hsd
    rw [findPath_node] at hp
    rw [sdsOfTree_node]
    by_cases hid : d.sid = sid
    · rw [if_pos hid] at hp
      obtain rfl : [d] = p := Option.some.inj hp
      obtain rfl : sd = d := by simpa using hsd
      exact List.mem_cons_self _ _
    · rw [if_neg hid] at hp
      obtain ⟨q, hq, rfl⟩ := Option.map_eq_some'.mp hp
      rcases List.mem_cons.mp hsd with rfl | hmem
      · exact List.mem_cons_self _ _
      · exact List.mem_cons_of_mem _ (ihQ sid q hq sd hmem)
  · intro sid p hp
    rw [findPathForest_nil] at hp
    cases hp
  · intro t ts ihP ihQ sid p hp sd hsd
    rw [findPathForest_cons] at hp
    rw [sdsOfForest_cons]
    cases hfp : findPath sid t with
    | some q =>
      rw [hfp] at hp
      obtain rfl : q = p := Option.some.inj hp
      exact List.mem_append_left _ (ihP sid _ hfp sd hsd)
    | none =>
      rw [hfp] at hp
      exact List.mem_append_right _ (ihQ sid p hp sd hsd)

theorem resolveUp_self {symbol : String} :
    ∀ {chain : List Scope},
      (∀ sd ∈ chain, ∀ s, (dget sd.remapped_symbols s).isSome = true
        → s ∈ sd.local_declared_symbols) →
      (∀ sd ∈ chain, symbol ∉ sd.local_declared_symbols) →
      resolveUp symbol chain = symbol := by
  intro chain
  induction chain with
  | nil => intro _ _; rfl
  | cons d rest ih =>
    intro hk hnd
    rw [resolveUp]
    cases hg : dget d.remapped_symbols symbol with
    | some v =>
      exfalso
      exact hnd d (List.mem_cons_self _ _)
        (hk d (List.mem_cons_self _ _) symbol (by rw [hg]; rfl))
    | none =>
      exact ih (fun sd h => hk sd (List.mem_cons_of_mem _ h))
        (fun sd h => hnd sd (List.mem_cons_of_mem _ h))

theorem resolveUp_cases (symbol : String) :
    ∀ (chain : List Scope), resolveUp symbol chain = symbol
      ∨ ∃ sd ∈ chain, ∃ v, dget sd.remapped_symbols symbol = some v
          ∧ resolveUp symbol chain = v := by
  intro chain
  induction chain with
  | nil => exact Or.inl rfl
  | cons d rest ih =>
    rw [resolveUp]
    cases hg : dget d.remapped_symbols symbol with
    | some v =>
      by_cases hv : v = ""
      · refine Or.inl ?_
        simp [hv]
      · refine Or.inr ⟨d, List.mem_cons_self _ _, v, hg, ?_⟩
        simp [hv]
    | none =>
      rcases ih with h1 | ⟨sd, hsd, v, hv, heq⟩
      · exact Or.inl h1
      · exact Or.inr ⟨sd, List.mem_cons_of_mem _ hsd, v, hv, heq⟩

/-! ## Collection-phase invariants -/

theorem runEventsFrom_inv (P : Obfuscator → Prop) :
    ∀ (evs : List Event) (o0 o : Obfuscator),
      (∀ o1 e o2, e ∈ evs → P o1 → stepEv o1 e = .ok o2 → P o2) →
      P o0 → runEventsFrom o0 evs = .ok o → P o := by
  intro evs
  induction evs with
  | nil =>
    intro o0 o _ hP h
    simp only [runEventsFrom] at h
    obtain rfl : o0 = o := Except.ok.inj h
    exact hP
  | cons e t ih =>
    intro o0 o hstep hP h
    simp only [runEventsFrom] at h
    cases hs : stepEv o0 e with
    | error msg =>
      rw [hs] at h
      cases h
    | ok o1 =>
      rw [hs] at h
      exact ih o1 o (fun a b c hb => hstep a b c (List.mem_cons_of_mem _ hb))
        (hstep o0 e o1 (List.mem_cons_self _ _) hP hs) h

theorem close_ok_spec {d : Scope} {cd : List Scope} {d' : Scope}
    (h : d.close cd = .ok d') :
    d.closed = false ∧ d'.remapped_symbols = d.remapped_symbols
      ∧ d'.local_declared_symbols = d.local_declared_symbols
      ∧ d'.closed = true ∧ d'.sid = d.sid ∧ d'.node = d.node := by
  unfold Scope.close at h
  by_cases hc : d.closed
  · rw [if_pos hc] at h; cases h
  · rw [if_neg hc] at h
    obtain rfl := Except.ok.inj h
    simp [hc]

theorem sdsOfForest_append (xs ys : List STree) :
    sdsOfForest (xs ++ ys) = sdsOfForest xs ++ sdsOfForest ys := by
  induction xs with
  | nil => simp [sdsOfForest_nil]
  | cons t ts ih => simp [sdsOfForest_cons, ih, List.cons_append, List.append_assoc]

theorem stepEv_push (o : Obfuscator) (n : Nat) : stepEv o (.push n) = pushScope o n := rfl

theorem stepEv_pop (o : Obfuscator) (n : Nat) : stepEv o (.pop n) = popScope o n := rfl

theorem stepEv_decl (o : Obfuscator) (occ : Nat) (v : String) :
    stepEv o (.decl occ v) = declareEv o v := rfl

theorem stepEv_ref (o : Obfuscator) (occ : Nat) (v : String) :
    stepEv o (.ref occ v) = referenceEv o occ v := rfl

theorem pushScope_nil {o : Obfuscator} (h : o.stack = []) (n : Nat) :
    pushScope o n = .error "list index out of range" := by
  unfold pushScope
  rw [h]

theorem pushScope_cons {o : Obfuscator} {f : Frame} {rest : List Frame}
    (h : o.stack = f :: rest) (n : Nat) :
    pushScope o n = .ok { o with
      stack :=
        ⟨{ sid := o.nextSid, node := some n, referenced_symbols := [],
           local_declared_symbols := [], remapped_symbols := [], closed := false }, []⟩
          :: f :: rest,
      scopes := dset o.scopes n o.nextSid,
      nextSid := o.nextSid + 1 } := by
  unfold pushScope
  conv_lhs => rw [h]

theorem popScope_nil {o : Obfuscator} (h : o.stack = []) (n : Nat) :
    popScope o n = .error "pop from empty list" := by
  unfold popScope
  rw [h]

theorem popScope_err {o : Obfuscator} {f : Frame} {rest : List Frame} {msg : String}
    (h : o.stack = f :: rest) (hcl : f.d.close (f.children.map STree.dOf) = .error msg)
    (n : Nat) : popScope o n = .error msg := by
  obtain ⟨stack, fin, ids, scps, nβ, og, rk⟩ := o
  cases h
  simp only [popScope]
  rw [hcl]

theorem popScope_last {o : Obfuscator} {f : Frame} {d' : Scope}
    (h : o.stack = [f]) (hcl : f.d.close (f.children.map STree.dOf) = .ok d')
    (n : Nat) :
    popScope o n = .ok { o with stack := [], finished := some (.node d' f.children) } := by
  obtain ⟨stack, fin, ids, scps, nβ, og, rk⟩ := o
  cases h
  simp only [popScope]
  rw [hcl]

theorem popScope_inner {o : Obfuscator} {f g : Frame} {gs : List Frame} {d' : Scope}
    (h : o.stack = f :: g :: gs) (hcl : f.d.close (f.children.map STree.dOf) = .ok d')
    (n : Nat) :
    popScope o n = .ok { o with
      stack := { g with children := g.children ++ [.node d' f.children] } :: gs } := by
  obtain ⟨stack, fin, ids, scps, nβ, og, rk⟩ := o
  cases h
  simp only [popScope]
  rw [hcl]

theorem declareEv_nil {o : Obfuscator} (h : o.stack = []) (v : String) :
    declareEv o v = .error "list index out of range" := by
  unfold declareEv
  rw [h]

theorem declareEv_cons {o : Obfuscator} {f : Frame} {rest : List Frame}
    (h : o.stack = f :: rest) (v : String) :
    declareEv o v = .ok { o with stack := { f with d := f.d.declare v } :: rest } := by
  unfold declareEv
  rw [h]

theorem referenceEv_nil {o : Obfuscator} (h : o.stack = []) (occ : Nat) (v : String) :
    referenceEv o occ v = .error "list index out of range" := by
  unfold referenceEv
  rw [h]

theorem referenceEv_cons {o : Obfuscator} {f : Frame} {rest : List Frame}
    (h : o.stack = f :: rest) (occ : Nat) (v : String) :
    referenceEv o occ v = .ok { o with
      identifiers := dset o.identifiers occ f.d.sid,
      stack := { f with d := f.d.reference v } :: rest } := by
  unfold referenceEv
  conv_lhs => rw [h]

theorem stepEv_remapEmpty {o : Obfuscator} {e : Event} {o' : Obfuscator}
    (hInv : obfRemapEmpty o) (h : stepEv o e = .ok o') : obfRemapEmpty o' := by
  obtain ⟨hstack, hfin⟩ := hInv
  cases e with
  | push n =>
    rw [stepEv_push] at h
    cases hst : o.stack with
    | nil => rw [pushScope_nil hst] at h; cases h
    | cons f rest =>
      rw [pushScope_cons hst] at h
      obtain rfl := Except.ok.inj h
      refine ⟨?_, fun u hu => hfin u hu⟩
      intro g hg
      rcases List.mem_cons.mp hg with rfl | hg'
      · exact ⟨rfl, by intro sd hsd; rw [sdsOfForest_nil] at hsd; cases hsd⟩
      · exact hstack g (by rw [hst]; exact hg')
  | pop n =>
    rw [stepEv_pop] at h
    cases hst : o.stack with
    | nil => rw [popScope_nil hst] at h; cases h
    | cons f rest =>
      have hf := hstack f (by rw [hst]; exact List.mem_cons_self _ _)
      cases hcl : f.d.close (f.children.map STree.dOf) with
      | error msg => rw [popScope_err hst hcl] at h; cases h
      | ok d' =>
        have htree : ∀ sd ∈ sdsOfTree (.node d' f.children), sd.remapped_symbols = [] := by
          intro sd hsd
          rw [sdsOfTree_node] at hsd
          rcases List.mem_cons.mp hsd with rfl | hsd'
          · rw [(close_ok_spec hcl).2.1]; exact hf.1
          · exact hf.2 sd hsd'
        cases rest with
        | nil =>
          rw [popScope_last (by rw [hst]) hcl] at h
          obtain rfl := Except.ok.inj h
          refine ⟨fun g hg => absurd hg (by simp), ?_⟩
          intro u hu
          obtain rfl := Option.some.inj hu
          exact htree
        | cons g gs =>
          rw [popScope_inner (by rw [hst]) hcl] at h
          obtain rfl := Except.ok.inj h
          refine ⟨?_, fun u hu => hfin u hu⟩
          intro g' hg'
          rcases List.mem_cons.mp hg' with rfl | hg''
          · have hgOld := hstack g
              (by rw [hst]; exact List.mem_cons_of_mem _ (List.mem_cons_self _ _))
            refine ⟨hgOld.1, ?_⟩
            intro sd hsd
            rw [sdsOfForest_append] at hsd
            rcases List.mem_append.mp hsd with h1 | h2
            · exact hgOld.2 sd h1
            · rw [sdsOfForest_cons, sdsOfForest_nil, List.append_nil] at h2
              exact htree sd h2
          · exact hstack g'
              (by rw [hst]; exact List.mem_cons_of_mem _ (List.mem_cons_of_mem _ hg''))
  | decl occ v =>
    rw [stepEv_decl] at h
    cases hst : o.stack with
    | nil => rw [declareEv_nil hst] at h; cases h
    | cons f rest =>
      rw [declareEv_cons hst] at h
      obtain rfl := Except.ok.inj h
      refine ⟨?_, fun u hu => hfin u hu⟩
      intro g hg
      have hf := hstack f (by rw [hst]; exact List.mem_cons_self _ _)
      rcases List.mem_cons.mp hg with rfl | hg'
      · exact ⟨hf.1, hf.2⟩
      · exact hstack g (by rw [hst]; exact List.mem_cons_of_mem _ hg')
  | ref occ v =>
    rw [stepEv_ref] at h
    cases hst : o.stack with
    | nil => rw [referenceEv_nil hst] at h; cases h
    | cons f rest =>
      rw [referenceEv_cons hst] at h
      obtain rfl := Except.ok.inj h
      refine ⟨?_, fun u hu => hfin u hu⟩
      intro g hg
      have hf := hstack f (by rw [hst]; exact List.mem_cons_self _ _)
      rcases List.mem_cons.mp hg with rfl | hg'
      · exact ⟨hf.1, hf.2⟩
      · exact hstack g (by rw [hst]; exact List.mem_cons_of_mem _ hg')

theorem runEvents_remapEmpty {og : Bool} {rk : List String} {evs : List Event} {o : Obfuscator}
    (h : runEvents og rk evs = .ok o) : obfRemapEmpty o := by
  apply runEventsFrom_inv _ evs (Obfuscator.init og rk) o
    (fun o1 e o2 _ hP hs => stepEv_remapEmpty hP hs) _ h
  constructor
  · intro f hf
    obtain rfl : f = ⟨rootScope, []⟩ := by simpa [Obfuscator.init] using hf
    exact ⟨rfl, by intro sd hsd; rw [sdsOfForest_nil] at hsd; cases hsd⟩
  · intro u hu
    simp [Obfuscator.init] at hu

theorem reconstructRoot_sds :
    ∀ (stack : List Frame) (acc : Option STree) (t : STree),
      stack.foldl (fun acc f => some (.node f.d (f.children ++ acc.toList))) acc = some t →
      (∀ f ∈ stack, f.d.remapped_symbols = []
        ∧ ∀ sd ∈ sdsOfForest f.children, sd.remapped_symbols = []) →
      (∀ u, acc = some u → ∀ sd ∈ sdsOfTree u, sd.remapped_symbols = []) →
      ∀ sd ∈ sdsOfTree t, sd.remapped_symbols = [] := by
  intro stack
  induction stack with
  | nil =>
    intro acc t hf _ hacc
    rw [List.foldl_nil] at hf
    exact hacc t hf
  | cons f rest ih =>
    intro acc t hf hstack hacc
    rw [List.foldl_cons] at hf
    refine ih _ t hf (fun g hg => hstack g (List.mem_cons_of_mem _ hg)) ?_
    intro u hu
    obtain rfl := Option.some.inj hu
    intro sd hsd
    rw [sdsOfTree_node] at hsd
    have hff := hstack f (List.mem_cons_self _ _)
    rcases List.mem_cons.mp hsd with rfl | hsd'
    · exact hff.1
    · rw [sdsOfForest_append] at hsd'
      rcases List.mem_append.mp hsd' with h1 | h2
      · exact hff.2 sd h1
      · cases hac : acc with
        | none => rw [hac] at h2; rw [Option.toList_none, sdsOfForest_nil] at h2; cases h2
        | some u0 =>
          rw [hac] at h2
          rw [Option.toList_some, sdsOfForest_cons, sdsOfForest_nil, List.append_nil] at h2
          exact hacc u0 hac sd h2

theorem ID_CHARS_ne_nil : ID_CHARS ≠ [] := by decide

theorem finalizeObf_ok_spec {o : Obfuscator} {t : STree}
    (hInv : obfRemapEmpty o) (h : finalizeObf o = .ok t) :
    (∀ sd ∈ sdsOfTree t, ∀ s, (dget sd.remapped_symbols s).isSome = true
      → s ∈ sd.local_declared_symbols)
    ∧ (∀ sd ∈ sdsOfTree t, ∀ s v, dget sd.remapped_symbols s = some v
      → v ∉ o.reserved_keywords)
    ∧ (o.obfuscate_globals = false → t.dOf.remapped_symbols = []) := by
  obtain ⟨hstack, hfin⟩ := hInv
  obtain ⟨stack, fin, ids, scps, nid, og, rk⟩ := o
  cases fin with
  | some u =>
    simp only [finalizeObf] at h
    cases h
  | none =>
    simp only [finalizeObf] at h
    split at h
    · cases h
    · rename_i d cs hrec
      split at h
      · cases h
      · rename_i d' hcl
        obtain rfl := Except.ok.inj h
        have hpre : ∀ sd ∈ sdsOfTree (STree.node d cs), sd.remapped_symbols = [] := by
          refine reconstructRoot_sds stack none (STree.node d cs) hrec hstack ?_
          intro u hu
          cases hu
        have hpre' : ∀ sd ∈ sdsOfTree (STree.node d' cs), sd.remapped_symbols = [] := by
          intro sd hsd
          rw [sdsOfTree_node] at hsd
          rcases List.mem_cons.mp hsd with rfl | hsd'
          · rw [(close_ok_spec hcl).2.1]
            exact hpre d (by rw [sdsOfTree_node]; exact List.mem_cons_self _ _)
          · exact hpre sd (by rw [sdsOfTree_node]; exact List.mem_cons_of_mem _ hsd')
        refine ⟨?_, ?_, ?_⟩
        · exact fun sd hsd s hs =>
            (buildRemap_keys_decl ID_CHARS rk).1 (STree.node d' cs) [] [] _ hpre' sd hsd s hs
        · exact fun sd hsd s v hv =>
            (buildRemap_vals_not_reserved ID_CHARS ID_CHARS_ne_nil rk).1
              (STree.node d' cs) [] [] _ hpre' sd hsd s v hv
        · intro hog
          rw [show og = false from hog, buildRemapTree_node, STree.dOf]
          have hd' : d'.remapped_symbols = [] :=
            hpre' d' (by rw [sdsOfTree_node]; exact List.mem_cons_self _ _)
          simp [hd']

/-! ## Leak-propagation lemmas -/

theorem dgetD_dset_self {α β : Type} [DecidableEq α] (l : List (α × β)) (k : α) (v : β)
    (dflt : β) : dgetD (dset l k v) k dflt = v := by
  unfold dgetD
  rw [dget_dset_self]
  rfl

theorem dgetD_dset_ne {α β : Type} [DecidableEq α] (l : List (α × β)) (k k' : α) (v : β)
    (dflt : β) (h : k ≠ k') : dgetD (dset l k v) k' dflt = dgetD l k' dflt := by
  unfold dgetD
  rw [dget_dset_ne _ _ _ _ h]

theorem dget_filter_not_decl {l : List (String × Nat)} {decl : List String} {k : String} :
    dget (l.filter (fun kv => decide (kv.1 ∉ decl))) k
      = if k ∈ decl then none else dget l k := by
  induction l with
  | nil => simp [dget]
  | cons hd t ih =>
    obtain ⟨k0, v0⟩ := hd
    by_cases h0 : k0 ∈ decl
    · rw [List.filter_cons, if_neg (by simp [h0])]
      rw [ih]
      by_cases hk : k ∈ decl
      · rw [if_pos hk, if_pos hk]
      · rw [if_neg hk, if_neg hk]
        have hne : k0 ≠ k := fun hh => hk (hh ▸ h0)
        rw [show dget ((k0, v0) :: t) k = dget t k from by simp [dget, hne]]
    · rw [List.filter_cons, if_pos (by simp [h0])]
      by_cases hk0 : k0 = k
      · subst hk0
        rw [if_neg h0]
        simp [dget]
      · rw [show dget ((k0, v0) :: t.filter (fun kv => decide (kv.1 ∉ decl))) k
            = dget (t.filter (fun kv => decide (kv.1 ∉ decl))) k from by simp [dget, hk0]]
        rw [show dget ((k0, v0) :: t) k = dget t k from by simp [dget, hk0]]
        exact ih

theorem keysNodup_leaked {d : Scope} (h : keysNodup d.referenced_symbols) :
    keysNodup d.leaked := by
  unfold keysNodup at h ⊢
  exact ((List.filter_sublist _).map Prod.fst).nodup h

theorem dgetD_leaked (d : Scope) (k : String) :
    dgetD d.leaked k 0
      = if k ∈ d.local_declared_symbols then 0 else dgetD d.referenced_symbols k 0 := by
  unfold dgetD Scope.leaked
  rw [dget_filter_not_decl]
  by_cases hk : k ∈ d.local_declared_symbols
  · rw [if_pos hk, if_pos hk]; rfl
  · rw [if_neg hk, if_neg hk]

theorem mergeChild_val {leaks : List (String × Nat)} (hn : keysNodup leaks) :
    ∀ (rs : List (String × Nat)) (k : String),
      dgetD (mergeChild rs leaks) k 0 = dgetD rs k 0 + dgetD leaks k 0 := by
  induction leaks with
  | nil => intro rs k; simp [mergeChild, dgetD, dget]
  | cons e t ih =>
    intro rs k
    obtain ⟨k1, v1⟩ := e
    unfold keysNodup at hn
    simp only [List.map_cons, List.nodup_cons] at hn
    have step : mergeChild rs ((k1, v1) :: t)
        = mergeChild (dset rs k1 (dgetD rs k1 0 + v1)) t := by
      simp [mergeChild]
    rw [step, ih hn.2]
    by_cases hk : k1 = k
    · subst hk
      rw [dgetD_dset_self]
      have ht : dgetD t k1 0 = 0 := by
        unfold dgetD
        rw [dget_not_mem_keys hn.1]
        rfl
      rw [ht]
      rw [show dgetD ((k1, v1) :: t) k1 0 = v1 from by simp [dgetD, dget]]
      omega
    · rw [dgetD_dset_ne _ _ _ _ _ hk]
      rw [show dgetD ((k1, v1) :: t) k 0 = dgetD t k 0 from by simp [dgetD, dget, hk]]

theorem close_foldl_val {cds : List Scope} (hn : ∀ cd ∈ cds, keysNodup cd.referenced_symbols) :
    ∀ (rs : List (String × Nat)) (k : String),
      dgetD (cds.foldl (fun rs cd => mergeChild rs cd.leaked) rs) k 0
        = dgetD rs k 0 + (cds.map (fun cd =>
            if k ∈ cd.local_declared_symbols then 0 else dgetD cd.referenced_symbols k 0)).sum := by
  induction cds with
  | nil => intro rs k; simp
  | cons cd t ih =>
    intro rs k
    rw [List.foldl_cons, List.map_cons, List.sum_cons]
    rw [ih (fun x hx => hn x (List.mem_cons_of_mem _ hx))]
    rw [mergeChild_val (keysNodup_leaked (hn cd (List.mem_cons_self _ _)))]
    rw [dgetD_leaked]
    omega

/-! ## Frequency-priority lemmas -/

theorem sortedRefs_pairwise (refs : List (String × Nat)) :
    (sortedRefs refs).Pairwise (fun a b => b.2 ≤ a.2) := by
  unfold sortedRefs
  rw [List.pairwise_reverse]
  exact List.sorted_insertionSort (fun a b => a.2 ≤ b.2) refs

theorem sortedRefs_perm (refs : List (String × Nat)) : (sortedRefs refs).Perm refs := by
  unfold sortedRefs
  exact (List.reverse_perm _).trans (List.perm_insertionSort _ refs)

theorem two_mem_sublist {α : Type} {a b : α} :
    ∀ {l : List α}, a ∈ l → b ∈ l → a ≠ b → [a, b].Sublist l ∨ [b, a].Sublist l := by
  intro l
  induction l with
  | nil => intro ha; simp at ha
  | cons x t ih =>
    intro ha hb hne
    rcases List.mem_cons.mp ha with rfl | ha'
    · have hb' : b ∈ t := by
        rcases List.mem_cons.mp hb with rfl | h
        · exact absurd rfl hne
        · exact h
      exact Or.inl (List.Sublist.cons₂ _ (List.singleton_sublist.mpr hb'))
    · rcases List.mem_cons.mp hb with rfl | hb'
      · exact Or.inr (List.Sublist.cons₂ _ (List.singleton_sublist.mpr ha'))
      · rcases ih ha' hb' hne with h1 | h1
        · exact Or.inl (h1.cons _)
        · exact Or.inr (h1.cons _)

theorem drawNames_mem_of_mem {charset : List Char} {skipAll decl : List String}
    {s : String} {c : Nat} :
    ∀ {l : List (String × Nat)} {idx : Nat}, (s, c) ∈ l → s ∈ decl →
      ∃ j, (s, (nthName charset skipAll (idx + j)).getD "")
        ∈ drawNames charset skipAll decl l idx := by
  intro l
  induction l with
  | nil => intro idx h; simp at h
  | cons x t ih =>
    intro idx hmem hdecl
    obtain ⟨s0, c0⟩ := x
    by_cases hd : s0 ∈ decl
    · rw [show drawNames charset skipAll decl ((s0, c0) :: t) idx
          = (s0, (nthName charset skipAll idx).getD "")
            :: drawNames charset skipAll decl t (idx + 1) from by
        simp [drawNames, hd]]
      rcases List.mem_cons.mp hmem with heq | hmem'
      · obtain ⟨rfl, rfl⟩ : s0 = s ∧ c0 = c := by
          constructor <;> [exact congrArg Prod.fst heq.symm; exact congrArg Prod.snd heq.symm]
        exact ⟨0, List.mem_cons_self _ _⟩
      · obtain ⟨j, hj⟩ := @ih (idx + 1) hmem' hdecl
        refine ⟨j + 1, List.mem_cons_of_mem _ ?_⟩
        rw [show idx + (j + 1) = idx + 1 + j from by omega]
        exact hj
    · rw [show drawNames charset skipAll decl ((s0, c0) :: t) idx
          = drawNames charset skipAll decl t idx from by simp [drawNames, hd]]
      rcases List.mem_cons.mp hmem with heq | hmem'
      · obtain rfl : s0 = s := congrArg Prod.fst heq.symm
        exact absurd hdecl hd
      · exact ih hmem' hdecl

theorem drawNames_pair {charset : List Char} {skipAll decl : List String}
    {s1 s2 : String} {c1 c2 : Nat} :
    ∀ {l : List (String × Nat)} {idx : Nat}, [(s1, c1), (s2, c2)].Sublist l →
      s1 ∈ decl → s2 ∈ decl →
      ∃ i j, i < j
        ∧ (s1, (nthName charset skipAll (idx + i)).getD "")
            ∈ drawNames charset skipAll decl l idx
        ∧ (s2, (nthName charset skipAll (idx + j)).getD "")
            ∈ drawNames charset skipAll decl l idx := by
  intro l
  induction l with
  | nil => intro idx hsub; cases hsub
  | cons x t ih =>
    intro idx hsub h1 h2
    obtain ⟨s0, c0⟩ := x
    cases hsub with
    | cons _ hsub' =>
      by_cases hd : s0 ∈ decl
      · rw [show drawNames charset skipAll decl ((s0, c0) :: t) idx
            = (s0, (nthName charset skipAll idx).getD "")
              :: drawNames charset skipAll decl t (idx + 1) from by
          simp [drawNames, hd]]
        obtain ⟨i, j, hij, hi, hj⟩ := @ih (idx + 1) hsub' h1 h2
        refine ⟨i + 1, j + 1, by omega, ?_, ?_⟩
        · rw [show idx + (i + 1) = idx + 1 + i from by omega]
          exact List.mem_cons_of_mem _ hi
        · rw [show idx + (j + 1) = idx + 1 + j from by omega]
          exact List.mem_cons_of_mem _ hj
      · rw [show drawNames charset skipAll decl ((s0, c0) :: t) idx
            = drawNames charset skipAll decl t idx from by simp [drawNames, hd]]
        exact ih hsub' h1 h2
    | cons₂ _ hsub' =>
      -- the head is the first entry of the pair
      rw [show drawNames charset skipAll decl ((s1, c1) :: t) idx
          = (s1, (nthName charset skipAll idx).getD "")
            :: drawNames charset skipAll decl t (idx + 1) from by
        simp [drawNames, h1]]
      have hmem2 : (s2, c2) ∈ t := List.singleton_sublist.mp hsub'
      obtain ⟨j, hj⟩ := @drawNames_mem_of_mem charset skipAll decl s2 c2 t (idx + 1) hmem2 h2
      refine ⟨0, j + 1, by omega, ?_, ?_⟩
      · rw [Nat.add_zero]
        exact List.mem_cons_self _ _
      · rw [show idx + (j + 1) = idx + 1 + j from by omega]
        exact List.mem_cons_of_mem _ hj

theorem drawNames_keys_sublist {charset : List Char} {skipAll decl : List String} :
    ∀ (l : List (String × Nat)) (idx : Nat),
      ((drawNames charset skipAll decl l idx).map Prod.fst).Sublist (l.map Prod.fst) := by
  intro l
  induction l with
  | nil => intro idx; simp [drawNames]
  | cons x t ih =>
    intro idx
    obtain ⟨s0, c0⟩ := x
    by_cases hd : s0 ∈ decl
    · rw [show drawNames charset skipAll decl ((s0, c0) :: t) idx
          = (s0, (nthName charset skipAll idx).getD "")
            :: drawNames charset skipAll decl t (idx + 1) from by
        simp [drawNames, hd]]
      rw [List.map_cons, List.map_cons]
      exact (ih (idx + 1)).cons₂ _
    · rw [show drawNames charset skipAll decl ((s0, c0) :: t) idx
          = drawNames charset skipAll decl t idx from by simp [drawNames, hd]]
      rw [List.map_cons]
      exact (ih idx).cons _

theorem mem_mem_nodup_eq {α β : Type} [DecidableEq α] {l : List (α × β)} {k : α} {v v' : β}
    (hn : keysNodup l) (h : (k, v) ∈ l) (h' : (k, v') ∈ l) : v = v' := by
  have e1 := mem_dget_nodup hn h
  have e2 := mem_dget_nodup hn h'
  rw [e1] at e2
  exact Option.some.inj e2

/-! ## Configuration and identifiers invariants -/

theorem stepEv_config {o : Obfuscator} {e : Event} {o' : Obfuscator}
    (h : stepEv o e = .ok o') :
    o'.obfuscate_globals = o.obfuscate_globals ∧ o'.reserved_keywords = o.reserved_keywords := by
  cases e with
  | push n =>
    rw [stepEv_push] at h
    cases hst : o.stack with
    | nil => rw [pushScope_nil hst] at h; cases h
    | cons f rest =>
      rw [pushScope_cons hst] at h
      obtain rfl := Except.ok.inj h
      exact ⟨rfl, rfl⟩
  | pop n =>
    rw [stepEv_pop] at h
    cases hst : o.stack with
    | nil => rw [popScope_nil hst] at h; cases h
    | cons f rest =>
      cases hcl : f.d.close (f.children.map STree.dOf) with
      | error msg => rw [popScope_err hst hcl] at h; cases h
      | ok d' =>
        cases rest with
        | nil =>
          rw [popScope_last (by rw [hst]) hcl] at h
          obtain rfl := Except.ok.inj h
          exact ⟨rfl, rfl⟩
        | cons g gs =>
          rw [popScope_inner (by rw [hst]) hcl] at h
          obtain rfl := Except.ok.inj h
          exact ⟨rfl, rfl⟩
  | decl occ v =>
    rw [stepEv_decl] at h
    cases hst : o.stack with
    | nil => rw [declareEv_nil hst] at h; cases h
    | cons f rest =>
      rw [declareEv_cons hst] at h
      obtain rfl := Except.ok.inj h
      exact ⟨rfl, rfl⟩
  | ref occ v =>
    rw [stepEv_ref] at h
    cases hst : o.stack with
    | nil => rw [referenceEv_nil hst] at h; cases h
    | cons f rest =>
      rw [referenceEv_cons hst] at h
      obtain rfl := Except.ok.inj h
      exact ⟨rfl, rfl⟩

theorem runEvents_config {og : Bool} {rk : List String} {evs : List Event} {o : Obfuscator}
    (h : runEvents og rk evs = .ok o) :
    o.obfuscate_globals = og ∧ o.reserved_keywords = rk := by
  apply runEventsFrom_inv
    (fun x => x.obfuscate_globals = og ∧ x.reserved_keywords = rk) evs _ o
    (fun o1 e o2 _ hP hs => by
      obtain ⟨h1, h2⟩ := stepEv_config hs
      exact ⟨h1.trans hP.1, h2.trans hP.2⟩)
    ⟨rfl, rfl⟩ h

theorem stepEv_ids_none {o : Obfuscator} {e : Event} {o' : Obfuscator} {occ : Nat}
    (hno : isRefOf occ e = false) (hP : dget o.identifiers occ = none)
    (h : stepEv o e = .ok o') : dget o'.identifiers occ = none := by
  cases e with
  | push n =>
    rw [stepEv_push] at h
    cases hst : o.stack with
    | nil => rw [pushScope_nil hst] at h; cases h
    | cons f rest =>
      rw [pushScope_cons hst] at h
      obtain rfl := Except.ok.inj h
      exact hP
  | pop n =>
    rw [stepEv_pop] at h
    cases hst : o.stack with
    | nil => rw [popScope_nil hst] at h; cases h
    | cons f rest =>
      cases hcl : f.d.close (f.children.map STree.dOf) with
      | error msg => rw [popScope_err hst hcl] at h; cases h
      | ok d' =>
        cases rest with
        | nil =>
          rw [popScope_last (by rw [hst]) hcl] at h
          obtain rfl := Except.ok.inj h
          exact hP
        | cons g gs =>
          rw [popScope_inner (by rw [hst]) hcl] at h
          obtain rfl := Except.ok.inj h
          exact hP
  | decl occ' v =>
    rw [stepEv_decl] at h
    cases hst : o.stack with
    | nil => rw [declareEv_nil hst] at h; cases h
    | cons f rest =>
      rw [declareEv_cons hst] at h
      obtain rfl := Except.ok.inj h
      exact hP
  | ref occ' v =>
    have hne : occ' ≠ occ := by
      intro hh
      rw [show isRefOf occ (.ref occ' v) = decide (occ' = occ) from rfl] at hno
      rw [hh] at hno
      simp at hno
    rw [stepEv_ref] at h
    cases hst : o.stack with
    | nil => rw [referenceEv_nil hst] at h; cases h
    | cons f rest =>
      rw [referenceEv_cons hst] at h
      obtain rfl := Except.ok.inj h
      show dget (dset o.identifiers occ' f.d.sid) occ = none
      rw [dget_dset_ne _ _ _ _ hne]
      exact hP

theorem runEvents_ids_none {og : Bool} {rk : List String} {evs : List Event} {o : Obfuscator}
    {occ : Nat} (h : runEvents og rk evs = .ok o)
    (hno : ∀ e ∈ evs, isRefOf occ e = false) : dget o.identifiers occ = none := by
  apply runEventsFrom_inv (fun x => dget x.identifiers occ = none) evs
    (Obfuscator.init og rk) o
    (fun o1 e o2 he hP hs => stepEv_ids_none (hno e he) hP hs) (by rfl) h

theorem obfResolve_of_ids_none {t : STree} {ids : List (Nat × Nat)} {occ : Nat} {v : String}
    (h : dget ids occ = none) : obfResolve t ids occ v = v := by
  unfold obfResolve
  rw [h]

/-! ## Claims -/

/-- C2 (counterexample): the code does not guard `declare`/`reference`
against a closed scope.  After a successful `close`, `declare` and
`reference` are silently applied — the scope stays marked closed while
its symbol tables mutate — instead of failing with a
`ScopeClosedError`-style error as the claim requires. -/
theorem c2_counterexample :
    (rootScope.close []).isOk = true
    ∧ (getOk rootScope (rootScope.close [])).closed = true
    ∧ ((getOk rootScope (rootScope.close [])).declare "x").closed = true
    ∧ "x" ∈ ((getOk rootScope (rootScope.close [])).declare "x").local_declared_symbols
    ∧ dgetD ((getOk rootScope (rootScope.close [])).reference "x").referenced_symbols "x" 0
        = dgetD (getOk rootScope (rootScope.close [])).referenced_symbols "x" 0 + 1 := by
  refine ⟨rfl, rfl, rfl, by decide, rfl⟩

/-- C2 (amended): on a closed scope only `close` itself raises (the
`already marked as closed` `ValueError`); `declare` and `reference`
never check the closed flag and are applied silently. -/
theorem c2_amended (d : Scope) (cds : List Scope) (s : String) (h : d.closed = true) :
    d.close cds = .error "scope is already marked as closed"
    ∧ (d.declare s).closed = true
    ∧ s ∈ (d.declare s).local_declared_symbols
    ∧ (d.reference s).closed = true
    ∧ dgetD (d.reference s).referenced_symbols s 0 = dgetD d.referenced_symbols s 0 + 1 := by
  refine ⟨?_, h, ?_, h, ?_⟩
  · unfold Scope.close
    rw [h]
    rfl
  · show s ∈ (if s ∈ d.local_declared_symbols then d.local_declared_symbols
      else d.local_declared_symbols ++ [s])
    by_cases hs : s ∈ d.local_declared_symbols
    · rw [if_pos hs]; exact hs
    · rw [if_neg hs]; exact List.mem_append_right _ (List.mem_cons_self _ _)
  · exact dgetD_dset_self _ _ _ _

/-- Witness for C2 (amended) at a concrete closed scope. -/
theorem c2_amended_witness :
    c2closedScope.closed = true
    ∧ (c2closedScope.close [] = .error "scope is already marked as closed"
      ∧ (c2closedScope.declare "x").closed = true
      ∧ "x" ∈ (c2closedScope.declare "x").local_declared_symbols
      ∧ (c2closedScope.reference "x").closed = true
      ∧ dgetD (c2closedScope.reference "x").referenced_symbols "x" 0
          = dgetD c2closedScope.referenced_symbols "x" 0 + 1) :=
  ⟨by decide, c2_amended c2closedScope [] "x" (by decide)⟩

/-- C3 (counterexample): `pop_scope` with only the root on the stack
succeeds — it silently pops and closes the root instead of raising an
`UnbalancedTraversal`-style error — and a collection that ends with an
extra open scope on the stack finalizes without any error. -/
theorem c3_counterexample :
    (popScope (Obfuscator.init false []) 0).isOk = true
    ∧ ((runEvents false [] [.push 1, .decl 5 "z"]).bind finalizeObf).isOk = true := by
  refine ⟨rfl, rfl⟩

/-- C3 (amended): `pop_scope` on an empty stack fails with the
list-pop `IndexError`; `pop_scope` with only the root remaining
succeeds, closing and removing the root, after which `finalize` fails
with the already-closed error and further pops fail with the empty-pop
error.  No check relates the popped scope's node to the event, and
`finalize` performs no stack-balance check of its own. -/
theorem c3_amended (o o' : Obfuscator) (node m : Nat) (og : Bool) (rk : List String) :
    (o.stack = [] → popScope o node = .error "pop from empty list")
    ∧ (popScope (Obfuscator.init og rk) m = .ok o' →
        o'.stack = [] ∧ o'.finished.isSome = true
        ∧ finalizeObf o' = .error "scope is already marked as closed"
        ∧ popScope o' node = .error "pop from empty list") := by
  constructor
  · intro h
    exact popScope_nil h node
  · intro h
    have hst : (Obfuscator.init og rk).stack = [⟨rootScope, []⟩] := rfl
    have hcl : (Frame.mk rootScope []).d.close
        ((Frame.mk rootScope []).children.map STree.dOf)
        = .ok { rootScope with closed := true } := rfl
    rw [popScope_last hst hcl] at h
    obtain rfl := Except.ok.inj h
    exact ⟨rfl, rfl, rfl, popScope_nil rfl node⟩

/-- Witness for C3 (amended): the popped-root state. -/
theorem c3_amended_witness :
    popScope c3popped 9 = .error "pop from empty list"
    ∧ (c3popped.stack = [] ∧ c3popped.finished.isSome = true
      ∧ finalizeObf c3popped = .error "scope is already marked as closed"
      ∧ popScope c3popped 9 = .error "pop from empty list") :=
  ⟨(c3_amended c3popped c3popped 9 0 false []).1 (by rfl),
   (c3_amended c3popped c3popped 9 0 false []).2 (by rfl)⟩

/-- C5: leak propagation of `close`.  For an open scope whose children
are already closed, `close` succeeds; afterwards each referenced count
equals its previous value plus, for every child, that child's leaked
(referenced-but-not-locally-declared) count for the same symbol; the
declared set and remap table are untouched and the scope is marked
closed. -/
theorem c5_close_leak_merge (d : Scope) (cds : List Scope)
    (hopen : d.closed = false)
    (hclosed : ∀ cd ∈ cds, cd.closed = true)
    (hn : ∀ cd ∈ cds, keysNodup cd.referenced_symbols) :
    ∃ d', d.close cds = .ok d'
      ∧ d'.closed = true
      ∧ d'.local_declared_symbols = d.local_declared_symbols
      ∧ d'.remapped_symbols = d.remapped_symbols
      ∧ ∀ k, dgetD d'.referenced_symbols k 0
          = dgetD d.referenced_symbols k 0
            + (cds.map (fun cd =>
                if k ∈ cd.local_declared_symbols then 0
                else dgetD cd.referenced_symbols k 0)).sum := by
  have hrw : d.close cds = .ok { d with
      referenced_symbols :=
        cds.foldl (fun rs cd => mergeChild rs cd.leaked) d.referenced_symbols,
      closed := true } := by
    unfold Scope.close
    rw [hopen]
    rfl
  exact ⟨_, hrw, rfl, rfl, rfl, fun k => close_foldl_val hn d.referenced_symbols k⟩

/-- Witness for C5 at a concrete parent and child. -/
theorem c5_witness :
    c5parent.closed = false
    ∧ (∀ cd ∈ [c5child], cd.closed = true)
    ∧ (∀ cd ∈ [c5child], keysNodup cd.referenced_symbols)
    ∧ ∃ d', c5parent.close [c5child] = .ok d'
      ∧ d'.closed = true
      ∧ d'.local_declared_symbols = c5parent.local_declared_symbols
      ∧ d'.remapped_symbols = c5parent.remapped_symbols
      ∧ ∀ k, dgetD d'.referenced_symbols k 0
          = dgetD c5parent.referenced_symbols k 0
            + ([c5child].map (fun cd =>
                if k ∈ cd.local_declared_symbols then 0
                else dgetD cd.referenced_symbols k 0)).sum :=
  ⟨by decide, by decide, by decide,
   c5_close_leak_merge c5parent [c5child] (by decide) (by decide) (by decide)⟩

/-- C9: an occurrence for which no `reference` event was observed is
absent from the `identifiers` table, and `resolve` returns its original
text unchanged, whatever the finalized scope tree holds. -/
theorem c9_declare_only_resolves_to_original (og : Bool) (rk : List String)
    (evs : List Event) (o : Obfuscator) (occ : Nat) (v : String) (t : STree)
    (hrun : runEvents og rk evs = .ok o)
    (hno : ∀ e ∈ evs, isRefOf occ e = false) :
    dget o.identifiers occ = none ∧ obfResolve t o.identifiers occ v = v := by
  have h := runEvents_ids_none hrun hno
  exact ⟨h, obfResolve_of_ids_none h⟩

/-- Witness for C9: occurrence 102 is declare-only and resolves to its
original text `x`, even though `x` was remapped (the reference
occurrence 103 of the same symbol resolves to the remapped `a`). -/
theorem c9_witness :
    (∀ e ∈ c9evs, isRefOf 102 e = false)
    ∧ (dget c9obf.identifiers 102 = none
      ∧ obfResolve c9tree c9obf.identifiers 102 "x" = "x")
    ∧ obfResolve c9tree c9obf.identifiers 103 "x" = "a" :=
  ⟨by decide,
   c9_declare_only_resolves_to_original false [] c9evs c9obf 102 "x" c9tree rfl (by decide),
   by rfl⟩

/-- C10: the `node` argument of `pop_scope` has no influence — the two
calls are literally the same state transition — and a pop whose node
does not match the scope it closes is accepted without error whenever
the stack is nonempty with an open top. -/
theorem c10_pop_ignores_node (o : Obfuscator) (n1 n2 : Nat) :
    popScope o n1 = popScope o n2
    ∧ (∀ f rest, o.stack = f :: rest → f.d.closed = false →
        (popScope o n1).isOk = true) := by
  constructor
  · rfl
  · intro f rest hst hcl
    cases hres : f.d.close (f.children.map STree.dOf) with
    | error msg =>
      exfalso
      unfold Scope.close at hres
      rw [hcl] at hres
      simp at hres
    | ok d' =>
      cases rest with
      | nil =>
        rw [popScope_last hst hres]
        rfl
      | cons g gs =>
        rw [popScope_inner hst hres]
        rfl

/-- Witness for C10: two pops with different (both wrong) nodes on a
fresh obfuscator coincide and succeed. -/
theorem c10_witness :
    popScope (Obfuscator.init false []) 0 = popScope (Obfuscator.init false []) 1
    ∧ (popScope (Obfuscator.init false []) 0).isOk = true :=
  ⟨(c10_pop_ignores_node (Obfuscator.init false []) 0 1).1,
   (c10_pop_ignores_node (Obfuscator.init false []) 0 1).2 ⟨rootScope, []⟩ [] rfl rfl⟩

/-- C1 (code bug): α-equivalence fails.  In
`function A() { var x; function B() { function C() { x; var y; y; } } }`
the scope of `C` excludes only its immediate parent `B`'s remapped
values, not the grandparent `A`'s, so `y` in `C` is remapped to `a`
while the visible `x` (declared in `A`, remapped to `a` there) also
resolves to `a` inside `C`: two distinct simultaneously-visible
bindings collide, and two occurrences resolving to the same text denote
different bindings (`x` has its remap entry in scope 1, `y` in scope 3,
yet both render as `a`). -/
theorem c1_collision_eval :
    runEvents false [] c1evs = .ok c1s10
    ∧ finalizeObf c1s10 = .ok c1treeLit
    ∧ obfResolve c1treeLit c1s10.identifiers 101 "x" = "a"
    ∧ obfResolve c1treeLit c1s10.identifiers 103 "y" = "a"
    ∧ (sdsOfTree c1treeLit).map (fun sd =>
        (sd.sid, sd.local_declared_symbols, sd.remapped_symbols))
      = [(0, [], []), (1, ["x"], [("x", "a")]), (2, [], []), (3, ["y"], [("y", "a")])]
    ∧ dget c1s10.identifiers 101 = some 3
    ∧ dget c1s10.identifiers 103 = some 3 := by
  have h1 : stepEv (Obfuscator.init false []) (.push 1) = .ok c1s1 := rfl
  have h2 : stepEv c1s1 (.decl 100 "x") = .ok c1s2 := rfl
  have h3 : stepEv c1s2 (.push 2) = .ok c1s3 := rfl
  have h4 : stepEv c1s3 (.push 3) = .ok c1s4 := rfl
  have h5 : stepEv c1s4 (.ref 101 "x") = .ok c1s5 := rfl
  have h6 : stepEv c1s5 (.decl 102 "y") = .ok c1s6 := rfl
  have h7 : stepEv c1s6 (.ref 103 "y") = .ok c1s7 := rfl
  have h8 : stepEv c1s7 (.pop 3) = .ok c1s8 := rfl
  have h9 : stepEv c1s8 (.pop 2) = .ok c1s9 := rfl
  have h10 : stepEv c1s9 (.pop 1) = .ok c1s10 := rfl
  refine ⟨?_, rfl, rfl, rfl, rfl, rfl, rfl⟩
  show runEventsFrom (Obfuscator.init false []) c1evs = .ok c1s10
  simp only [c1evs, runEventsFrom, h1, h2, h3, h4, h5, h6, h7, h8, h9, h10]

set_option maxHeartbeats 1600000 in
/-- C4 (counterexample): in `function f() { var x; } function g() { x; }`
the symbol `x` is a key of scope 1's remap table (it is locally declared
there) while the same name is classified free/global elsewhere in the
program — it is a global symbol of the root scope — so the claim's
"anywhere in the program" quantification fails.  The free occurrence
itself still resolves unchanged. -/
theorem c4_counterexample :
    runEvents false [] c4evs = .ok c4obf
    ∧ finalizeObf c4obf = .ok c4tree
    ∧ dget ((sdsOfTree c4tree).getD 1 rootScope).remapped_symbols "x" = some "a"
    ∧ "x" ∈ globalSymbolsOf c4tree.dOf []
    ∧ obfResolve c4tree c4obf.identifiers 11 "x" = "x" := by
  refine ⟨rfl, rfl, rfl, by decide, rfl⟩

/-- C4 (amended): under the default configuration, after a collection
run and finalize, the root scope's remap table stays empty, every remap
key anywhere in the tree is locally declared in its own scope (hence not
free in that scope), and any symbol not declared anywhere along an
occurrence's scope chain resolves to itself. -/
theorem c4_amended (rk : List String) (evs : List Event) (o : Obfuscator) (t : STree)
    (hrun : runEvents false rk evs = .ok o) (hfin : finalizeObf o = .ok t) :
    t.dOf.remapped_symbols = []
    ∧ (∀ sd ∈ sdsOfTree t, ∀ s, (dget sd.remapped_symbols s).isSome = true
        → s ∈ sd.local_declared_symbols)
    ∧ (∀ sid p s, findPath sid t = some p → (∀ sd ∈ p, s ∉ sd.local_declared_symbols)
        → resolveScope t sid s = s) := by
  have hInv := runEvents_remapEmpty hrun
  have hspec := finalizeObf_ok_spec hInv hfin
  have hog : o.obfuscate_globals = false := (runEvents_config hrun).1
  refine ⟨hspec.2.2 hog, hspec.1, ?_⟩
  intro sid p s hp hnd
  unfold resolveScope
  rw [hp]
  apply resolveUp_self
  · intro sd hsd s' hs'
    exact hspec.1 sd ((findPath_subset_sds.1 t sid p hp) sd (List.mem_reverse.mp hsd)) s' hs'
  · intro sd hsd
    exact hnd sd (List.mem_reverse.mp hsd)

/-- Witness for C4 (amended) on the concrete run of `c4evs`. -/
theorem c4_amended_witness :
    c4tree.dOf.remapped_symbols = []
    ∧ (∀ sd ∈ sdsOfTree c4tree, ∀ s, (dget sd.remapped_symbols s).isSome = true
        → s ∈ sd.local_declared_symbols)
    ∧ (∀ sid p s, findPath sid c4tree = some p →
        (∀ sd ∈ p, s ∉ sd.local_declared_symbols) → resolveScope c4tree sid s = s) :=
  c4_amended [] c4evs c4obf c4tree rfl rfl

/-- C8: the name generator is exactly the skip-filtered, length-then-
lexicographic enumeration over the alphabet: it never yields an excluded
name; its `i`-th output is the `i`-th element of the filtered
enumeration; every non-excluded word over the alphabet of bounded length
appears; the enumeration is ordered by length, and within one length
block lexicographically by alphabet position (for an alphabet without
duplicate characters); and for a nonempty alphabet the `i`-th name
exists for every `i`. -/
theorem c8_generator_enumeration (charset : List Char) (skip : List String) (L i n : Nat)
    (w : String) :
    (w ∈ genSeg charset skip 1 L → w ∉ skip)
    ∧ nthName charset skip i = (genSeg charset skip 1 (i + skip.length + 1))[i]?
    ∧ (1 ≤ w.length → w.length ≤ L → (∀ c ∈ w.data, c ∈ charset) → w ∉ skip →
        w ∈ genSeg charset skip 1 L)
    ∧ (genSeg charset skip 1 L).Pairwise (fun a b => a.length ≤ b.length)
    ∧ (charset ≠ [] → (nthName charset skip i).isSome = true)
    ∧ (charset.Nodup → (wordsL charset n).Pairwise (List.Lex (posLt charset))) := by
  refine ⟨fun h => mem_genSeg_not_skip h, nthName_eq_genSeg charset skip i, ?_,
    genSeg_pairwise_len charset skip L 1, fun h => nthName_isSome h skip i,
    fun h => wordsL_pairwise_lex h n⟩
  intro h1 hL hc hskip
  have hw : w ∈ wordsS charset w.length := by
    have h' := @wordsL_complete charset w.data hc
    have hm : String.mk w.data ∈ wordsS charset w.data.length := List.mem_map_of_mem _ h'
    simpa using hm
  exact mem_genSeg_of (by omega) (by omega) hw hskip

/-- Witness for C8: over the alphabet `a, b` with `a` excluded, `bb`
belongs to the two-block enumeration, and the first generated name
exists. -/
theorem c8_witness :
    "bb" ∈ genSeg [Char.ofNat 97, Char.ofNat 98] ["a"] 1 2
    ∧ (nthName [Char.ofNat 97, Char.ofNat 98] ["a"] 0).isSome = true :=
  ⟨(c8_generator_enumeration [Char.ofNat 97, Char.ofNat 98] ["a"] 2 0 2 "bb").2.2.1
      (by decide) (by decide) (by decide) (by decide),
   (c8_generator_enumeration [Char.ofNat 97, Char.ofNat 98] ["a"] 2 0 2 "bb").2.2.2.2.1
      (by decide)⟩

/-- C7 (counterexample): the text returned by `resolve` can be a
reserved keyword.  With `reserved_keywords = ["window"]` and a program
that references the global `window`, the occurrence is unremapped and
resolves to its original text `window`, which is a member of the
configured reserved set — refuting the claim for every identifier
occurrence. -/
theorem c7_counterexample :
    runEvents false ["window"] c7evs = .ok c7obf
    ∧ finalizeObf c7obf = .ok c7tree
    ∧ obfResolve c7tree c7obf.identifiers 1 "window" = "window"
    ∧ "window" ∈ c7obf.reserved_keywords := by
  refine ⟨rfl, rfl, rfl, by decide⟩

theorem obfResolve_some {t : STree} {ids : List (Nat × Nat)} {occ sid : Nat} {v : String}
    (h : dget ids occ = some sid) : obfResolve t ids occ v = resolveScope t sid v := by
  unfold obfResolve
  rw [h]

theorem resolveScope_none {t : STree} {sid : Nat} {v : String}
    (h : findPath sid t = none) : resolveScope t sid v = v := by
  unfold resolveScope
  rw [h]

theorem resolveScope_some {t : STree} {sid : Nat} {p : List Scope} {v : String}
    (h : findPath sid t = some p) : resolveScope t sid v = resolveUp v p.reverse := by
  unfold resolveScope
  rw [h]

/-- C7 (amended): no replacement value in any remap table built by
finalize is ever a member of `reserved_keywords` (the root generator is
seeded with them and every derived per-scope generator's skip set is a
superset), so the only way `resolve` returns a reserved word is when it
is the occurrence's own original text, returned unchanged. -/
theorem c7_reserved_exclusion (og : Bool) (rk : List String) (evs : List Event)
    (o : Obfuscator) (t : STree) (occ : Nat) (v : String)
    (hrun : runEvents og rk evs = .ok o) (hfin : finalizeObf o = .ok t) :
    (∀ sd ∈ sdsOfTree t, ∀ s w, dget sd.remapped_symbols s = some w → w ∉ rk)
    ∧ (obfResolve t o.identifiers occ v ∈ rk → obfResolve t o.identifiers occ v = v) := by
  have hInv := runEvents_remapEmpty hrun
  have hspec := finalizeObf_ok_spec hInv hfin
  have hrk : o.reserved_keywords = rk := (runEvents_config hrun).2
  have hvals : ∀ sd ∈ sdsOfTree t, ∀ s w, dget sd.remapped_symbols s = some w → w ∉ rk := by
    intro sd hsd s w hw
    have := hspec.2.1 sd hsd s w hw
    rwa [hrk] at this
  refine ⟨hvals, ?_⟩
  cases hid : dget o.identifiers occ with
  | none =>
    rw [obfResolve_of_ids_none hid]
    intro _
    rfl
  | some sid =>
    rw [obfResolve_some hid]
    cases hfp : findPath sid t with
    | none =>
      rw [resolveScope_none hfp]
      intro _
      rfl
    | some p =>
      rw [resolveScope_some hfp]
      intro hmem
      rcases resolveUp_cases v p.reverse with h1 | ⟨sd, hsd, w, hw, heq⟩
      · exact h1
      · exfalso
        rw [heq] at hmem
        exact hvals sd
          ((findPath_subset_sds.1 t sid p hfp) sd (List.mem_reverse.mp hsd)) v w hw hmem

/-- Witness for C7 (amended) on the concrete `window` run. -/
theorem c7_witness :
    (∀ sd ∈ sdsOfTree c7tree, ∀ s w, dget sd.remapped_symbols s = some w → w ∉ ["window"])
    ∧ (obfResolve c7tree c7obf.identifiers 1 "window" ∈ ["window"] →
        obfResolve c7tree c7obf.identifiers 1 "window" = "window") :=
  c7_reserved_exclusion false ["window"] c7evs c7obf c7tree 1 "window" rfl rfl

/-- C6: frequency-priority monotonicity of one scope's remap step.  If
two locally declared symbols have reference counts `c2 < c1`, the
replacement drawn for the more-referenced symbol is never strictly
longer than the one drawn for the less-referenced symbol: the sort
processes higher counts first and the generator's output lengths are
nondecreasing. -/
theorem c6_frequency_priority (charset : List Char) (rootSkip localSkip : List String)
    (d : Scope) (s1 s2 v1 v2 : String) (c1 c2 : Nat)
    (hcs : charset ≠ [])
    (hn : keysNodup d.referenced_symbols)
    (hrem : d.remapped_symbols = [])
    (h1d : s1 ∈ d.local_declared_symbols) (h2d : s2 ∈ d.local_declared_symbols)
    (h1 : dget d.referenced_symbols s1 = some c1)
    (h2 : dget d.referenced_symbols s2 = some c2)
    (hgt : c2 < c1)
    (hv1 : dget (buildRemapSelf charset rootSkip d localSkip).remapped_symbols s1 = some v1)
    (hv2 : dget (buildRemapSelf charset rootSkip d localSkip).remapped_symbols s2 = some v2) :
    v1.length ≤ v2.length := by
  have hm1 : (s1, c1) ∈ sortedRefs d.referenced_symbols :=
    ((sortedRefs_perm _).mem_iff).mpr (dget_mem h1)
  have hm2 : (s2, c2) ∈ sortedRefs d.referenced_symbols :=
    ((sortedRefs_perm _).mem_iff).mpr (dget_mem h2)
  have hne : ((s1, c1) : String × Nat) ≠ (s2, c2) := by
    intro hh
    have : c1 = c2 := congrArg Prod.snd hh
    omega
  have hsub : [(s1, c1), (s2, c2)].Sublist (sortedRefs d.referenced_symbols) := by
    rcases two_mem_sublist hm1 hm2 hne with h | h
    · exact h
    · exfalso
      have := List.pairwise_iff_forall_sublist.mp (sortedRefs_pairwise d.referenced_symbols) h
      simp only at this
      omega
  obtain ⟨i, j, hij, hmem1, hmem2⟩ :=
    @drawNames_pair charset (localSkip ++ rootSkip) d.local_declared_symbols s1 s2 c1 c2
      (sortedRefs d.referenced_symbols) 0 hsub h1d h2d
  have hkeys : keysNodup (sortedRefs d.referenced_symbols) := by
    unfold keysNodup at hn ⊢
    exact (((sortedRefs_perm d.referenced_symbols).map Prod.fst).nodup_iff).mpr hn
  have hdn : keysNodup (drawNames charset (localSkip ++ rootSkip) d.local_declared_symbols
      (sortedRefs d.referenced_symbols) 0) := by
    unfold keysNodup
    exact (drawNames_keys_sublist _ _).nodup hkeys
  have hv1' : (s1, v1) ∈ drawNames charset (localSkip ++ rootSkip) d.local_declared_symbols
      (sortedRefs d.referenced_symbols) 0 := by
    unfold buildRemapSelf at hv1
    rcases dget_foldl_dset_eq_some hv1 with ha | hb
    · rw [hrem] at ha; simp [dget] at ha
    · exact hb
  have hv2' : (s2, v2) ∈ drawNames charset (localSkip ++ rootSkip) d.local_declared_symbols
      (sortedRefs d.referenced_symbols) 0 := by
    unfold buildRemapSelf at hv2
    rcases dget_foldl_dset_eq_some hv2 with ha | hb
    · rw [hrem] at ha; simp [dget] at ha
    · exact hb
  have he1 : v1 = (nthName charset (localSkip ++ rootSkip) (0 + i)).getD "" :=
    mem_mem_nodup_eq hdn hv1' hmem1
  have he2 : v2 = (nthName charset (localSkip ++ rootSkip) (0 + j)).getD "" :=
    mem_mem_nodup_eq hdn hv2' hmem2
  obtain ⟨wi, hwi⟩ := Option.isSome_iff_exists.mp
    (nthName_isSome hcs (localSkip ++ rootSkip) (0 + i))
  obtain ⟨wj, hwj⟩ := Option.isSome_iff_exists.mp
    (nthName_isSome hcs (localSkip ++ rootSkip) (0 + j))
  rw [he1, he2, hwi, hwj]
  exact nthName_len_mono hcs (by omega) hwi hwj

/-- Witness for C6: in a scope declaring `p` (5 references) and `q`
(one reference), `p` draws `a` and `q` draws `b`. -/
theorem c6_witness :
    dget (buildRemapSelf ID_CHARS [] c6scope []).remapped_symbols "p" = some "a"
    ∧ dget (buildRemapSelf ID_CHARS [] c6scope []).remapped_symbols "q" = some "b"
    ∧ ("a" : String).length ≤ ("b" : String).length :=
  ⟨rfl, rfl,
   c6_frequency_priority ID_CHARS [] [] c6scope "p" "q" "a" "b" 5 1
     ID_CHARS_ne_nil (by decide) rfl (by decide) (by decide) rfl rfl (by decide) rfl rfl⟩
